import Mathlib

/-!
Verification of the ComputationalGraph library (C++): a shallow embedding of
the node abstraction (Node.hpp), the fold node (FoldNode.hpp), the graph
scheduler (Graph.hpp), the delay queue (the DelayQueue part of Graph.hpp) and
the worker pool submission logic (ThreadsPool.hpp), together with theorems
about the claims of the specification.

Modelling conventions: C++ values flowing along edges are drawn from a single
Lean type parameter V (the C++ code is templated; type tags are modelled
separately where a claim is about runtime types). Machine integers that are
only ever incremented are modelled as Nat. Exceptions are modelled with
explicit error values. The concurrent scheduler is modelled by its
sequentialisation: submitted jobs are processed from a FIFO worklist, which
realises one legal interleaving of the worker pool; state components
(isScheduled, completedCount, the pending job queue) follow the source.
-/

namespace CompGraph

/-- Error kind raised by Node run when some input slot is unset
(std runtime error with message about uninitialized inputs in the source). -/
inductive RunError where
  | inputsNotReady
deriving DecidableEq, Repr

/-- Replaces the element at position i by f applied to it; out of range is a
no-op (models an in-place write through a valid index). -/
def listModify (f : α → α) : Nat → List α → List α
  | _, [] => []
  | 0, a :: l => f a :: l
  | n + 1, a :: l => a :: listModify f n l

/-! ### Node (Node.hpp)

The templated class Node with output type O and input types I1 .. Ik is
embedded with a uniform value type V: the pointer tuple `inputs` together
with the boolean array `inputsSet` is modelled by a list of optional slot
values (a slot is set exactly when it holds some value); the computation is a
function from the list of slot values; `outputCallbacks` registered by
`connect` are pairs (successor id, slot index of the successor written by the
handler), kept in registration order, and `outputs` is the separate list of
successor ids maintained by addCallback. -/

structure GNode (V : Type) where
  slots : List (Option V)
  result : Option V
  func : List V → V
  callbacks : List (Nat × Nat)
  outputs : List Nat
  id : Nat

/-- Node isReady: accumulate of logical and over inputsSet. -/
def GNode.isReady (n : GNode V) : Bool :=
  (n.slots.map Option.isSome).foldl (fun a c => a && c) true

/-- Node run: if ready, apply the computation to the stored inputs, store the
result, and fire every output callback in registration order with the result
(an event (c, j, r) stands for the handler writing r into slot j of node c);
otherwise throw. -/
def GNode.run (n : GNode V) : Except RunError (GNode V × List (Nat × Nat × V)) :=
  if n.isReady then
    let r := n.func n.slots.reduceOption
    Except.ok ({ n with result := some r }, n.callbacks.map (fun cb => (cb.1, cb.2, r)))
  else
    Except.error RunError.inputsNotReady

/-- Node getResult returns the stored optional result. -/
def GNode.getResult (n : GNode V) : Option V :=
  n.result

/-! ### FoldNode (FoldNode.hpp)

FoldNode with output type O and element type T derives from Node over a
single vector slot. The buffered mode stores arrivals in that vector slot
(always marked set by the value constructor); the eager mode folds arrivals
into the atomic accumulator cell (sequentialised: the CAS retry loop applies
the fold function once per arrival). currentValue is default constructed, so
unengaged, in buffered mode and holds the init value in eager mode. -/

structure FoldNode (O T : Type) where
  buffer : List T
  result : Option O
  inputsSet0 : Bool
  foldFunction : O → T → O
  init : O
  computeInInputNode : Bool
  inputsReadyCount : Nat
  inputsDeclaredCount : Nat
  currentValue : Option O

/-- FoldNode value constructor (id, computeWithInput, func, init): marks the
single underlying slot set, stores init into the accumulator cell in eager
mode, and in buffered mode installs the accumulate-over-the-buffer
computation (left fold with initial value init). -/
def mkFoldNode (computeWithInput : Bool) (func : O → T → O) (init : O) : FoldNode O T :=
  { buffer := []
    result := none
    inputsSet0 := true
    foldFunction := func
    init := init
    computeInInputNode := computeWithInput
    inputsReadyCount := 0
    inputsDeclaredCount := 0
    currentValue := if computeWithInput then some init else none }

/-- FoldNode isReady: declared-inputs counter equals ready-inputs counter. -/
def FoldNode.isReady (n : FoldNode O T) : Bool :=
  n.inputsDeclaredCount == n.inputsReadyCount

/-- FoldNode add: eager mode folds the arrival into the accumulator cell (the
CAS loop, sequentialised); buffered mode appends the arrival to the buffer
under the add mutex. -/
def FoldNode.add (n : FoldNode O T) (t : T) : FoldNode O T :=
  if n.computeInInputNode then
    { n with currentValue := n.currentValue.map (fun c => n.foldFunction c t) }
  else
    { n with buffer := n.buffer ++ [t] }

/-- FoldNode run: buffered mode delegates to Node run, whose readiness
check virtually dispatches to the FoldNode isReady override (declared-inputs
counter equal to ready-inputs counter); when ready, the installed
computation left-folds the buffer from init. Eager mode stores the
accumulator into the result without any readiness check. -/
def FoldNode.run (n : FoldNode O T) : Except RunError (FoldNode O T) :=
  if n.computeInInputNode then
    Except.ok { n with result := n.currentValue }
  else if n.isReady then
    Except.ok { n with result := some (n.buffer.foldl n.foldFunction n.init) }
  else
    Except.error RunError.inputsNotReady

/-- FoldNode getResult: the accumulator cell in eager mode (converted to an
engaged optional), the stored result in buffered mode. -/
def FoldNode.getResult (n : FoldNode O T) : Option O :=
  if n.computeInInputNode then n.currentValue else n.result

/-- Effect of both connectFrom overloads on the fold node itself: the
declared-inputs counter is incremented at connect time (the registered
callback acts later, at delivery time). -/
def FoldNode.connectFrom (n : FoldNode O T) : FoldNode O T :=
  { n with inputsDeclaredCount := n.inputsDeclaredCount + 1 }

/-- Firing of the callback registered by the scalar connectFrom overload:
add the produced value, then increment the ready-inputs counter. -/
def FoldNode.deliver (n : FoldNode O T) (t : T) : FoldNode O T :=
  let n2 := n.add t
  { n2 with inputsReadyCount := n2.inputsReadyCount + 1 }

/-- Firing of the callback registered by the vector connectFrom overload:
every element of the produced vector is delivered (added one by one in eager
mode, appended to the buffer under one lock in buffered mode), and the
ready-inputs counter is incremented exactly once. -/
def FoldNode.deliverVec (n : FoldNode O T) (ts : List T) : FoldNode O T :=
  let n2 :=
    if n.computeInInputNode then ts.foldl FoldNode.add n
    else { n with buffer := n.buffer ++ ts }
  { n2 with inputsReadyCount := n2.inputsReadyCount + 1 }

/-! ### ThreadsPool submission (ThreadsPool.hpp)

For the repeatable submission contract only the order of the two effects of
submitRepeatable matters: scheduling the next occurrence on the delay queue
(with delay repeatTime) and running the job body now. The trace of effects is
recorded in order. -/

inductive RepeatableStrategy where
  | Periodic
  | Interval
deriving DecidableEq, Repr

inductive PoolEvent (J : Type) where
  | scheduleNext (delay : Nat)
  | runBody (j : J)
deriving DecidableEq, Repr

/-- Effect trace of one submitRepeatable call: Periodic submits the delayed
re-submission first and then, unless delayed, runs the body; Interval runs
the body first, unless delayed, and then submits the delayed re-submission. -/
def submitRepeatable (job : J) (repeatTime : Nat)
    (strategy : RepeatableStrategy) (delayed : Bool) : List (PoolEvent J) :=
  match strategy with
  | RepeatableStrategy.Periodic =>
      PoolEvent.scheduleNext repeatTime ::
        (if delayed then [] else [PoolEvent.runBody job])
  | RepeatableStrategy.Interval =>
      (if delayed then [] else [PoolEvent.runBody job]) ++
        [PoolEvent.scheduleNext repeatTime]

/-! ### Graph and scheduler (Graph.hpp)

The graph owns a vector of INode pointers and the set of leaf ids. At run
time the scheduler uses only the INode interface: isReady() and run() (both
virtual, so a fold node resolves them to its FoldNode overrides) and
getOutputs(). A stored node is therefore either a plain Node — input slots,
stored result, computation — or a FoldNode as embedded above. The typed
closures a producer holds in outputCallbacks are represented by handler
descriptors, kept in registration order: the handler registered by connect
between plain nodes writes the produced value into an input slot of the
consumer (inputComputedCallback), and the handler registered by either
connectFrom overload delivers the produced value into the consumer fold
node (add, then increment the ready-inputs counter); the two connectFrom
overloads differ only in the buffer payload of the delivery, which the
scheduler never examines, so one descriptor kind covers both. A run is
modelled by an explicit state: the node vector, the isScheduled vector, the
atomic completedCount, the FIFO worklist of jobs submitted to the worker
pool (sequentialising the pool), and, as observation history, the list of
node ids on which run was invoked, in invocation order. -/

/-- For the error-atomicity of a single plain-node run, the connect handler
viewed on a vector of plain nodes: it writes the produced value into slot j
of node c. -/
def applyEvent (g : List (GNode V)) (e : Nat × Nat × V) : List (GNode V) :=
  listModify (fun nd => { nd with slots := nd.slots.set e.2.1 (some e.2.2) }) e.1 g

/-- Invoking run on node i of a vector of plain nodes: on success the
updated node is stored back and every callback event is applied in
registration order; the thrown error leaves the graph untouched. -/
def runNodeAt (g : List (GNode V)) (i : Nat) : Option RunError × List (GNode V) :=
  match g.get? i with
  | none => (none, g)
  | some nd =>
    match nd.run with
    | Except.error e => (some e, g)
    | Except.ok (nd2, events) =>
        (none, events.foldl applyEvent (listModify (fun _ => nd2) i g))

/-- One registered callback descriptor: write into input slot j of the
consumer (the connect handler between plain nodes), or deliver into the
consumer fold node (the connectFrom handler). -/
inductive Handler where
  | slot (j : Nat)
  | foldDeliver
deriving DecidableEq, Repr

/-- The kind-specific data of a stored node: a plain Node (input slots,
stored result, computation) or a FoldNode. -/
inductive NodeCore (V : Type) where
  | plain (slots : List (Option V)) (result : Option V) (func : List V → V)
  | fold (fn : FoldNode V V)

/-- One stored node as the scheduler sees it: its kind-specific data, its
callback descriptors paired with the consumer ids (outputCallbacks, in
registration order), the successor id list maintained by addCallback
(getOutputs), and the node id. -/
structure SchedNode (V : Type) where
  core : NodeCore V
  callbacks : List (Nat × Handler)
  outputs : List Nat
  id : Nat

structure ComputationalGraph (V : Type) where
  graph : List (SchedNode V)
  inputsIds : List Nat

structure RunState (V : Type) where
  nodes : List (SchedNode V)
  isScheduled : List Bool
  completedCount : Nat
  pending : List Nat
  runs : List Nat

/-- Callback descriptor list of the node with the given id (empty when out
of range). -/
def callbacksAt (g : List (SchedNode V)) (i : Nat) : List (Nat × Handler) :=
  match g.get? i with
  | some sn => sn.callbacks
  | none => []

/-- Successor id list of the node with the given id (getOutputs). -/
def outputsAt (g : List (SchedNode V)) (i : Nat) : List Nat :=
  match g.get? i with
  | some sn => sn.outputs
  | none => []

/-- Input arity of a plain node (zero for a fold node, whose single vector
slot is tracked by its counters instead). -/
def slotsLen (g : List (SchedNode V)) (i : Nat) : Nat :=
  match g.get? i with
  | some ⟨NodeCore.plain slots _ _, _, _, _⟩ => slots.length
  | _ => 0

/-- Whether input slot j of plain node c currently holds a value. -/
def slotSet (g : List (SchedNode V)) (c j : Nat) : Bool :=
  match g.get? c with
  | some ⟨NodeCore.plain slots _ _, _, _, _⟩ => (slots.getD j none).isSome
  | _ => false

/-- The virtual isReady of the node with the given id: the Node override
for a plain node (accumulate of logical and over inputsSet), the FoldNode
override for a fold node (declared-inputs counter equals ready-inputs
counter); false when out of range. -/
def isReadyAt (g : List (SchedNode V)) (i : Nat) : Bool :=
  match g.get? i with
  | some ⟨NodeCore.plain slots _ _, _, _, _⟩ =>
      (slots.map Option.isSome).foldl (fun a c => a && c) true
  | some ⟨NodeCore.fold fn, _, _, _⟩ => fn.isReady
  | none => false

/-- Whether the node with the given id is a fold node. -/
def isFoldAt (g : List (SchedNode V)) (i : Nat) : Bool :=
  match g.get? i with
  | some ⟨NodeCore.fold _, _, _, _⟩ => true
  | _ => false

/-- Declared-inputs counter of the fold node with the given id. -/
def Dof (g : List (SchedNode V)) (i : Nat) : Nat :=
  match g.get? i with
  | some ⟨NodeCore.fold fn, _, _, _⟩ => fn.inputsDeclaredCount
  | _ => 0

/-- Ready-inputs counter of the fold node with the given id. -/
def Rof (g : List (SchedNode V)) (i : Nat) : Nat :=
  match g.get? i with
  | some ⟨NodeCore.fold fn, _, _, _⟩ => fn.inputsReadyCount
  | _ => 0

/-- Eager flag (computeInInputNode) of the fold node with the given id. -/
def eagerAt (g : List (SchedNode V)) (i : Nat) : Bool :=
  match g.get? i with
  | some ⟨NodeCore.fold fn, _, _, _⟩ => fn.computeInInputNode
  | _ => false

/-- Whether the accumulator cell of the fold node with the given id holds a
value (vacuously true for other nodes). -/
def engagedAt (g : List (SchedNode V)) (i : Nat) : Bool :=
  match g.get? i with
  | some ⟨NodeCore.fold fn, _, _, _⟩ => fn.currentValue.isSome
  | _ => true

/-- Number of deliveries node p makes into fold node c when it fires: the
occurrences of the foldDeliver descriptor aimed at c among p's callbacks
(one per connectFrom from p, each firing exactly once per firing of p). -/
def cntFold (g : List (SchedNode V)) (p c : Nat) : Nat :=
  (callbacksAt g p).count (c, Handler.foldDeliver)

/-- Whether a callback descriptor is aimed at a node of the kind matching
the connect overload that registered it, with slot writers hitting existing
slots. -/
def handlerTyped (g : List (SchedNode V)) (e : Nat × Handler) : Bool :=
  match e.2 with
  | Handler.slot j => !(isFoldAt g e.1) && decide (j < slotsLen g e.1)
  | Handler.foldDeliver => isFoldAt g e.1

/-- The per-node data no run step changes: callback descriptors, successor
list, input arity, node kind, declared-inputs counter and eager flag. -/
structure NodeStatics where
  cbs : List (Nat × Handler)
  outs : List Nat
  slen : Nat
  isf : Bool
  dcl : Nat
  egr : Bool

def staticsAt (g : List (SchedNode V)) (i : Nat) : NodeStatics :=
  { cbs := callbacksAt g i
    outs := outputsAt g i
    slen := slotsLen g i
    isf := isFoldAt g i
    dcl := Dof g i
    egr := eagerAt g i }

/-- Firing one callback descriptor with the produced value v on its
consumer: the connect handler writes v into the consumer's input slot
(store the value, mark the slot set); the connectFrom handler delivers v
into the consumer fold node (add, then increment the ready-inputs counter).
A descriptor aimed at a node of the other kind arises from no connect call
and acts as the identity. -/
def fireHandler (h : Handler) (v : V) (sn : SchedNode V) : SchedNode V :=
  match h, sn.core with
  | Handler.slot j, NodeCore.plain slots res func =>
      { sn with core := NodeCore.plain (slots.set j (some v)) res func }
  | Handler.foldDeliver, NodeCore.fold fn =>
      { sn with core := NodeCore.fold (fn.deliver v) }
  | _, _ => sn

/-- Firing one event ((consumer, handler), value) inside the graph. -/
def applyEventS (g : List (SchedNode V)) (e : (Nat × Handler) × V) :
    List (SchedNode V) :=
  listModify (fireHandler e.1.2 e.2) e.1.1 g

/-- The virtual run of one stored node: the updated node together with the
fired events (one per callback descriptor, in registration order, carrying
the produced value), or the thrown error. A plain node follows Node::run; a
fold node follows FoldNode::run as embedded above and fires its callbacks
with the dereferenced stored result. When that result optional is
disengaged — possible only for a bare-constructed fold node, which the
graph construction API never produces — the source dereferences a
disengaged optional; that branch is modelled as firing nothing. -/
def SchedNode.runS (sn : SchedNode V) :
    Except RunError (SchedNode V × List ((Nat × Handler) × V)) :=
  match sn.core with
  | NodeCore.plain slots _res func =>
    if (slots.map Option.isSome).foldl (fun a c => a && c) true then
      Except.ok
        ({ sn with
            core := NodeCore.plain slots (some (func slots.reduceOption)) func },
          sn.callbacks.map (fun cb => (cb, func slots.reduceOption)))
    else Except.error RunError.inputsNotReady
  | NodeCore.fold fn =>
    match fn.run with
    | Except.error e => Except.error e
    | Except.ok fn2 =>
      match fn2.result with
      | some r =>
          Except.ok ({ sn with core := NodeCore.fold fn2 },
            sn.callbacks.map (fun cb => (cb, r)))
      | none => Except.ok ({ sn with core := NodeCore.fold fn2 }, [])

/-- Invoking run on node i inside the graph: on success the updated node is
stored back and every fired event is applied in registration order; the
thrown error leaves the graph untouched. -/
def runNodeAtS (g : List (SchedNode V)) (i : Nat) :
    Option RunError × List (SchedNode V) :=
  match g.get? i with
  | none => (none, g)
  | some sn =>
    match sn.runS with
    | Except.error e => (some e, g)
    | Except.ok (sn2, events) =>
        (none, events.foldl applyEventS (listModify (fun _ => sn2) i g))

/-- One iteration of the child scan inside onComplete: a ready, unscheduled
child is submitted to the pool (appended to the worklist) and marked
scheduled; the double-checked lock collapses in the sequentialisation. -/
def scheduleChild (s : RunState V) (c : Nat) : RunState V :=
  if isReadyAt s.nodes c && !(s.isScheduled.getD c false) then
    { s with
      pending := s.pending ++ [c]
      isScheduled := s.isScheduled.set c true }
  else s

/-- onComplete(id): scan the successors of id, scheduling those that are
ready and unscheduled, then increment completedCount (reaching the node
count notifies allCompleted). -/
def onComplete (s : RunState V) (i : Nat) : RunState V :=
  let s2 := (outputsAt s.nodes i).foldl scheduleChild s
  { s2 with completedCount := s2.completedCount + 1 }

/-- The closure submitted to the worker pool for a scheduled node: run it,
then call onComplete on it. An exception escaping run skips onComplete. -/
def runJob (s : RunState V) (i : Nat) : RunState V :=
  match runNodeAtS s.nodes i with
  | (some _, g2) => { s with nodes := g2, runs := s.runs ++ [i] }
  | (none, g2) => onComplete { s with nodes := g2, runs := s.runs ++ [i] } i

/-- Worker pool drain, sequentialised: repeatedly pop the oldest pending job
and execute it, with fuel bounding the number of processed jobs. -/
def processJobs : Nat → RunState V → RunState V
  | 0, s => s
  | fuel + 1, s =>
    match s.pending with
    | [] => s
    | i :: rest => processJobs fuel (runJob { s with pending := rest } i)

/-- Step 3 of Graph run for one leaf: synchronously invoke run on the leaf
(firing its callbacks) and mark it scheduled. -/
def primeLeaf (s : RunState V) (i : Nat) : RunState V :=
  { s with
    nodes := (runNodeAtS s.nodes i).2
    runs := s.runs ++ [i]
    isScheduled := s.isScheduled.set i true }

/-- Graph run: reset isScheduled, run every leaf synchronously in id order,
reset completedCount, call onComplete for every leaf, then let the pool
drain the submitted jobs. The caller then waits until completedCount equals
the node count, so the final completedCount decides whether the wait on
allCompleted ever returns. -/
def ComputationalGraph.run (G : ComputationalGraph V) : RunState V :=
  let s0 : RunState V :=
    { nodes := G.graph
      isScheduled := List.replicate G.graph.length false
      completedCount := 0
      pending := []
      runs := [] }
  let s1 := G.inputsIds.foldl primeLeaf s0
  let s2 := G.inputsIds.foldl onComplete s1
  processJobs (G.graph.length + 1) s2

/-- Well-formed pre-run graphs: exactly the states reachable through
addInput, addNode and the connect/connectFrom protocol before run is
invoked, in which every node that is not a registered leaf is fed from its
producers. Leaf ids are in range, pairwise distinct (a std set) and refer
to arity-zero plain nodes; outputs parallels the callback list (the
two-argument addCallback); every callback descriptor targets an in-range
node whose kind matches the connect overload that registered it, with slot
writers hitting existing slots; no input slot is set before the run; every
plain non-leaf node has at least one input slot and every one of its slots
has at least one registered writer (several writers per slot are allowed);
every fold node has its declared-inputs counter equal to the number of
registered incoming deliveries (each connectFrom pairs one counter
increment with one callback registration), at least one of them, and a
ready-inputs counter still zero; and an eager fold node's accumulator cell
is engaged (the value constructor stores init into it). -/
structure WfGraph (G : ComputationalGraph V) : Prop where
  leafBounds : ∀ ℓ ∈ G.inputsIds, ℓ < G.graph.length
  leafNodup : G.inputsIds.Nodup
  leafPlain : ∀ ℓ ∈ G.inputsIds,
      isFoldAt G.graph ℓ = false ∧ slotsLen G.graph ℓ = 0
  outputsEq : ∀ p < G.graph.length,
      outputsAt G.graph p = (callbacksAt G.graph p).map Prod.fst
  cbBounds : ∀ p < G.graph.length, ∀ e ∈ callbacksAt G.graph p,
      e.1 < G.graph.length ∧ handlerTyped G.graph e = true
  freshSlots : ∀ p < G.graph.length, ∀ j < slotsLen G.graph p,
      slotSet G.graph p j = false
  slotCovered : ∀ c < G.graph.length, isFoldAt G.graph c = false →
      c ∉ G.inputsIds → 0 < slotsLen G.graph c ∧
      ∀ j < slotsLen G.graph c,
        ∃ p ∈ List.range G.graph.length, (c, Handler.slot j) ∈ callbacksAt G.graph p
  foldDecl : ∀ c < G.graph.length, isFoldAt G.graph c = true →
      Dof G.graph c =
        ((List.range G.graph.length).map (fun p => cntFold G.graph p c)).sum ∧
      0 < Dof G.graph c ∧ Rof G.graph c = 0
  foldEngaged : ∀ c < G.graph.length, isFoldAt G.graph c = true →
      eagerAt G.graph c = true → engagedAt G.graph c = true

/-- Acyclicity of the edge relation registered by the connect calls,
expressed by a topological rank. -/
def Acyclic (G : ComputationalGraph V) : Prop :=
  ∃ rank : Nat → Nat, ∀ p < G.graph.length, ∀ e ∈ callbacksAt G.graph p,
    rank p < rank e.1

/-- Loop measure of the sequentialised pool drain: pending jobs plus nodes
not yet marked scheduled. -/
def potential (s : RunState V) : Nat :=
  s.pending.length + s.isScheduled.count false

/-- The scheduler loop invariant, relating a mid-run state to the graph it
was started from. -/
structure SchedInv (G : ComputationalGraph V) (s : RunState V) : Prop where
  nodesLen : s.nodes.length = G.graph.length
  statics : ∀ i, staticsAt s.nodes i = staticsAt G.graph i
  schedLen : s.isScheduled.length = G.graph.length
  pendNodup : s.pending.Nodup
  pendMem : ∀ c ∈ s.pending, c < G.graph.length ∧
      s.isScheduled.getD c false = true ∧ isReadyAt s.nodes c = true
  runsNodup : s.runs.Nodup
  runsMem : ∀ c ∈ s.runs, c < G.graph.length ∧ s.isScheduled.getD c false = true
  disj : ∀ c ∈ s.pending, c ∉ s.runs
  countEq : s.completedCount = s.runs.length
  schedImp : ∀ c, s.isScheduled.getD c false = true → c ∈ s.runs ∨ c ∈ s.pending
  deliveredSlots : ∀ p ∈ s.runs, ∀ e ∈ callbacksAt G.graph p, ∀ j,
      e.2 = Handler.slot j → slotSet s.nodes e.1 j = true
  foldCount : ∀ c, isFoldAt G.graph c = true →
      Rof s.nodes c = (s.runs.map (fun p => cntFold G.graph p c)).sum
  engaged : ∀ c, eagerAt G.graph c = true → engagedAt s.nodes c = true
  readySched : ∀ c < G.graph.length, c ∉ G.inputsIds →
      (∀ p < G.graph.length, (∃ h, (c, h) ∈ callbacksAt G.graph p) → p ∈ s.runs) →
      s.isScheduled.getD c false = true
  leavesRan : ∀ ℓ ∈ G.inputsIds, ℓ ∈ s.runs

/-- Intermediate state invariant while the leaves listed in `done` have been
run synchronously (step 3 of Graph run) and the rest have not. -/
structure PrimeInv (G : ComputationalGraph V) (s : RunState V) (done : List Nat) : Prop where
  nodesLen : s.nodes.length = G.graph.length
  statics : ∀ i, staticsAt s.nodes i = staticsAt G.graph i
  schedLen : s.isScheduled.length = G.graph.length
  pendNil : s.pending = []
  countZero : s.completedCount = 0
  runsEq : s.runs = done
  doneSub : ∀ c ∈ done, c ∈ G.inputsIds
  flagIff : ∀ c, s.isScheduled.getD c false = true ↔ c ∈ done
  deliveredSlots : ∀ p ∈ done, ∀ e ∈ callbacksAt G.graph p, ∀ j,
      e.2 = Handler.slot j → slotSet s.nodes e.1 j = true
  foldCount : ∀ c, isFoldAt G.graph c = true →
      Rof s.nodes c = (done.map (fun p => cntFold G.graph p c)).sum
  engaged : ∀ c, eagerAt G.graph c = true → engagedAt s.nodes c = true

/-- Intermediate state invariant while onComplete has been called for the
leaves listed in `done2` (step 4 of Graph run) and the rest have not. -/
structure P2Inv (G : ComputationalGraph V) (s : RunState V) (done2 : List Nat) : Prop where
  nodesLen : s.nodes.length = G.graph.length
  statics : ∀ i, staticsAt s.nodes i = staticsAt G.graph i
  schedLen : s.isScheduled.length = G.graph.length
  runsEq : s.runs = G.inputsIds
  countEq : s.completedCount = done2.length
  deliveredSlots : ∀ p ∈ G.inputsIds, ∀ e ∈ callbacksAt G.graph p, ∀ j,
      e.2 = Handler.slot j → slotSet s.nodes e.1 j = true
  foldCount : ∀ c, isFoldAt G.graph c = true →
      Rof s.nodes c = (G.inputsIds.map (fun p => cntFold G.graph p c)).sum
  engaged : ∀ c, eagerAt G.graph c = true → engagedAt s.nodes c = true
  pendNodup : s.pending.Nodup
  pendMem : ∀ c ∈ s.pending, c < G.graph.length ∧
      isReadyAt s.nodes c = true ∧ c ∉ G.inputsIds
  flagIff : ∀ c, s.isScheduled.getD c false = true ↔
      (c ∈ G.inputsIds ∨ c ∈ s.pending)
  covered : ∀ c, c ∉ G.inputsIds → isReadyAt s.nodes c = true →
      (∃ ℓ ∈ done2, c ∈ outputsAt G.graph ℓ) → s.isScheduled.getD c false = true
  potBound : potential s ≤ G.graph.length

/-! ### Runtime-typed view for setInput (Graph.hpp)

setInput performs a dynamic cast of the stored INode pointer to the leaf
node type with the value type of the supplied argument. The dynamic type of
each stored node is modelled by the output type tag and the list of input
type tags of its Node instantiation (a fold node over element type T is a
Node over the single input type vector of T, so it never casts to an arity
zero Node). Type tags are natural number codes. -/

structure TypedNode (V : Type) where
  node : GNode V
  outTy : Nat
  inTys : List Nat

inductive SetInputOutcome (V : Type) where
  | ok (g : List (TypedNode V))
  | badInputNode
  | undefinedBehavior

/-- Replacement of the computation of the node at the given position by the
constant returning val (setFunction with a capturing lambda). -/
def setConstFunc (v : V) (idx : Nat) (g : List (TypedNode V)) : List (TypedNode V) :=
  listModify (fun t => { t with node := { t.node with func := fun _ => v } }) idx g

/-- setInput(id, val): indexing the node vector out of range is undefined
behaviour (no bounds check in operator[]); in range, the dynamic cast to the
arity zero node with output type ty succeeds exactly when the stored node
has that dynamic type, and then the leaf computation is replaced by the
constant returning val; otherwise the call fails with BadInputNode. -/
def setInput (g : List (TypedNode V)) (idx : Nat) (ty : Nat) (val : V) :
    SetInputOutcome V :=
  match g.get? idx with
  | none => SetInputOutcome.undefinedBehavior
  | some tn =>
    if tn.inTys.isEmpty && (tn.outTy == ty) then
      SetInputOutcome.ok (setConstFunc val idx g)
    else
      SetInputOutcome.badInputNode

/-- addInput: append an arity zero node producing the given type and record
its id in the leaf set. -/
def addInput (G : List (TypedNode V)) (inputsIds : List Nat) (ty : Nat) (dflt : V) :
    List (TypedNode V) × List Nat :=
  let leafNode : GNode V :=
    { slots := []
      result := none
      func := fun _ => dflt
      callbacks := []
      outputs := []
      id := G.length }
  (G ++ [{ node := leafNode, outTy := ty, inTys := [] }], inputsIds ++ [G.length])

/-! ### DelayQueue (the DelayQueue part of Graph.hpp)

Elements are the (value, delay, enqueue time point) tuples of the source,
over a discrete logical clock. The comparator orders the priority queue by
ready time (enqueue time plus delay), earliest on top. popWait blocks until
the queue is nonempty and the top element is ready, so, started while the
clock shows `start`, it returns the element minimising the moment at which
it becomes poppable, that is max(start, ready time) (an element only exists
from its push time on, and ready time is at least push time); among elements
poppable at the same moment the one with the earlier ready time is on top.
The pop moment becomes the clock value for a subsequent pop. -/

structure QElem (V : Type) where
  val : V
  delay : Nat
  pushTime : Nat
deriving DecidableEq, Repr

/-- Ready time of a queue element: enqueue time point plus delay. -/
def readyTime (e : QElem V) : Nat := e.pushTime + e.delay

/-- The comparator of the source priority queue: p1 sorts below p2 when the
ready time of p1 is later. -/
def compareElems (e1 e2 : QElem V) : Bool :=
  readyTime e1 > readyTime e2

/-- The moment at which a popWait started at `start` can return e. -/
def popMoment (start : Nat) (e : QElem V) : Nat :=
  max start (readyTime e)

/-- Strict priority between two candidates of one popWait call: e1 beats e2
when it is poppable strictly earlier, or at the same moment with a strictly
earlier ready time (then e1 is above e2 in the heap). -/
def beats (start : Nat) (e1 e2 : QElem V) : Bool :=
  popMoment start e1 < popMoment start e2 ||
    (popMoment start e1 == popMoment start e2 && readyTime e1 < readyTime e2)

/-- popWait on the current multiset of pushed elements: returns the chosen
element, the moment it is popped, and the remaining elements; none models
blocking forever on an empty queue. Among tied candidates the earlier
pushed one (earlier in the list) is returned. -/
def popWait (start : Nat) : List (QElem V) → Option (QElem V × Nat × List (QElem V))
  | [] => none
  | e :: rest =>
    match popWait start rest with
    | none => some (e, popMoment start e, [])
    | some (e2, t2, rem) =>
      if beats start e2 e then some (e2, t2, e :: rem)
      else some (e, popMoment start e, rest)

/-- Values returned by successive popWait calls, each starting at the moment
the previous one returned. -/
def popAllFuel (fuel : Nat) (start : Nat) (l : List (QElem V)) : List V :=
  match fuel with
  | 0 => []
  | f + 1 =>
    match popWait start l with
    | none => []
    | some (e, t, rem) => e.val :: popAllFuel f t rem

/-- Drain the whole queue by successive popWait calls. -/
def popAllQ (start : Nat) (l : List (QElem V)) : List V :=
  popAllFuel l.length start l

/-! ### Concrete instances used by witnesses and counterexamples -/

/-- A node with both slots filled, one successor callback. -/
def demoReadyNode : GNode Nat :=
  { slots := [some 2, some 3]
    result := none
    func := fun l => l.foldl (fun a b => a + b) 0
    callbacks := [(1, 0)]
    outputs := [1]
    id := 0 }

/-- A node with its second slot unset. -/
def demoUnreadyNode : GNode Nat :=
  { slots := [some 2, none]
    result := none
    func := fun l => l.foldl (fun a b => a + b) 0
    callbacks := [(1, 0)]
    outputs := [1]
    id := 0 }

/-- A one-node graph view holding the unready node. -/
def demoBadGraph : List (GNode Nat) := [demoUnreadyNode]

/-- A graph holding a single arity-zero node created through addNode rather
than addInput: it is registered in no leaf set and has no predecessors, so
no onComplete ever visits it. -/
def demoUnreachable : ComputationalGraph Nat :=
  { graph := [{ core := NodeCore.plain [] none (fun _ => 0)
                callbacks := []
                outputs := []
                id := 0 }]
    inputsIds := [] }

/-- Another single unreachable node graph (used by the claim on run
multiplicities). -/
def demoUnreachable3 : ComputationalGraph Nat :=
  { graph := [{ core := NodeCore.plain [] none (fun _ => 7)
                callbacks := []
                outputs := []
                id := 0 }]
    inputsIds := [] }

/-- The diamond of the sample program: leaf 0 feeds two plain nodes 1 and 2,
which both deliver into the buffered fold node 3 (fan-in through
connectFrom, declared-inputs counter 2). -/
def demoDiamond : ComputationalGraph Nat :=
  { graph :=
      [{ core := NodeCore.plain [] none (fun _ => 10)
         callbacks := [(1, Handler.slot 0), (2, Handler.slot 0)]
         outputs := [1, 2]
         id := 0 },
       { core := NodeCore.plain [none] none (fun l => l.foldl (fun a b => a * b) 1)
         callbacks := [(3, Handler.foldDeliver)]
         outputs := [3]
         id := 1 },
       { core := NodeCore.plain [none] none (fun l => l.foldl (fun a b => a + b) 0)
         callbacks := [(3, Handler.foldDeliver)]
         outputs := [3]
         id := 2 },
       { core := NodeCore.fold
            ((mkFoldNode false (fun a b => a + b) 0).connectFrom.connectFrom)
         callbacks := []
         outputs := []
         id := 3 }]
    inputsIds := [0] }

/-- The same diamond shape with an eager fold sink (used by the claim on
run multiplicities). -/
def demoDiamond3 : ComputationalGraph Nat :=
  { graph :=
      [{ core := NodeCore.plain [] none (fun _ => 4)
         callbacks := [(1, Handler.slot 0), (2, Handler.slot 0)]
         outputs := [1, 2]
         id := 0 },
       { core := NodeCore.plain [none] none (fun l => l.foldl (fun a b => a * b) 2)
         callbacks := [(3, Handler.foldDeliver)]
         outputs := [3]
         id := 1 },
       { core := NodeCore.plain [none] none (fun l => l.foldl (fun a b => a + b) 1)
         callbacks := [(3, Handler.foldDeliver)]
         outputs := [3]
         id := 2 },
       { core := NodeCore.fold
            ((mkFoldNode true (fun a b => a + b) 0).connectFrom.connectFrom)
         callbacks := []
         outputs := []
         id := 3 }]
    inputsIds := [0] }

/-- A typed graph with one int leaf, built through addInput. -/
def tgOneLeaf : List (TypedNode Nat) :=
  (addInput ([] : List (TypedNode Nat)) [] 0 0).1

/-- A typed graph with one int leaf and one fold node over int (dynamic type
Node over the single input type vector of int, tag 1). -/
def tgLeafAndFold : List (TypedNode Nat) :=
  tgOneLeaf ++
    [{ node :=
        { slots := [none]
          result := none
          func := fun l => l.foldl (fun a b => a + b) 0
          callbacks := []
          outputs := []
          id := 1 }
       outTy := 0
       inTys := [1] }]

/-- The delayed submission scenario: J1 (value 1) pushed at time 0 with
delay 10, J2 (value 2) pushed at time 2 with delay 0. -/
def scenarioElems : List (QElem Nat) :=
  [{ val := 1, delay := 10, pushTime := 0 }, { val := 2, delay := 0, pushTime := 2 }]

end CompGraph

namespace CompGraph

/-! ## Theorems -/

/-! ### List helper lemmas -/

theorem listModify_length (f : α → α) (i : Nat) (l : List α) :
    (listModify f i l).length = l.length := by
  induction l generalizing i with
  | nil => cases i <;> rfl
  | cons a l ih =>
    cases i with
    | zero => rfl
    | succ n => simpa [listModify] using ih n

theorem listModify_get_self (f : α → α) (i : Nat) (l : List α) :
    (listModify f i l).get? i = (l.get? i).map f := by
  induction l generalizing i with
  | nil => cases i <;> rfl
  | cons a l ih =>
    cases i with
    | zero => rfl
    | succ n => simpa [listModify] using ih n

theorem listModify_get_other (f : α → α) (i j : Nat) (l : List α) (h : i ≠ j) :
    (listModify f i l).get? j = l.get? j := by
  induction l generalizing i j with
  | nil => cases i <;> rfl
  | cons a l ih =>
    cases i with
    | zero => cases j with
      | zero => exact absurd rfl h
      | succ m => rfl
    | succ n =>
      cases j with
      | zero => rfl
      | succ m =>
        simpa [listModify] using ih n m (fun hc => h (by simpa using hc))

theorem listSet_get_self (l : List α) (i : Nat) (a : α) (h : i < l.length) :
    (l.set i a).get? i = some a := by
  induction l generalizing i with
  | nil => simp at h
  | cons b l ih =>
    cases i with
    | zero => rfl
    | succ n => simpa [List.set] using ih n (by simpa using h)

theorem listSet_get_other (l : List α) (i j : Nat) (a : α) (h : i ≠ j) :
    (l.set i a).get? j = l.get? j := by
  induction l generalizing i j with
  | nil => rfl
  | cons b l ih =>
    cases i with
    | zero => cases j with
      | zero => exact absurd rfl h
      | succ m => rfl
    | succ n =>
      cases j with
      | zero => rfl
      | succ m => simpa [List.set] using ih n m (fun hc => h (by simpa using hc))

theorem listGetD_eq_get? (l : List α) (i : Nat) (d : α) :
    l.getD i d = (l.get? i).getD d := rfl

theorem foldl_and_eq_all (l : List Bool) (b : Bool) :
    l.foldl (fun a c => a && c) b = (b && l.all (fun c => c)) := by
  induction l generalizing b with
  | nil => simp
  | cons x l ih => simp [List.foldl, ih, Bool.and_assoc]

/-- Option list indexing used to talk about slot states. -/
theorem allSome_iff (l : List (Option α)) :
    l.all Option.isSome = true ↔ ∀ j < l.length, (l.getD j none).isSome = true := by
  induction l with
  | nil => simp
  | cons x l ih =>
    constructor
    · intro h j hj
      simp only [List.all_cons, Bool.and_eq_true] at h
      cases j with
      | zero => simpa [List.getD] using h.1
      | succ m => exact ih.1 h.2 m (by simpa using hj)
    · intro h
      simp only [List.all_cons, Bool.and_eq_true]
      refine ⟨by simpa [List.getD] using h 0 (by simp), ih.2 ?_⟩
      intro m hm
      simpa [List.getD] using h (m + 1) (by simpa using hm)

/-! ### Node readiness and graph access lemmas -/

theorem runNodeAt_of_get (g : List (GNode V)) (i : Nat) (nd : GNode V)
    (h1 : g.get? i = some nd) :
    runNodeAt g i = match nd.run with
      | Except.error e => (some e, g)
      | Except.ok (nd2, events) =>
          (none, events.foldl applyEvent (listModify (fun _ => nd2) i g)) := by
  unfold runNodeAt
  rw [h1]

theorem setInput_none (g : List (TypedNode V)) (idx ty : Nat) (v : V)
    (h : g.get? idx = none) :
    setInput g idx ty v = SetInputOutcome.undefinedBehavior := by
  unfold setInput
  rw [h]

theorem setInput_some (g : List (TypedNode V)) (idx ty : Nat) (v : V)
    (tn : TypedNode V) (h : g.get? idx = some tn) :
    setInput g idx ty v =
      if tn.inTys.isEmpty && (tn.outTy == ty) then
        SetInputOutcome.ok (setConstFunc v idx g)
      else SetInputOutcome.badInputNode := by
  unfold setInput
  rw [h]

/-- A node of arity zero always runs, producing its constant. -/
theorem GNode.run_nullary (n : GNode V) (h : n.slots = []) :
    n.run = Except.ok ({ n with result := some (n.func []) },
      n.callbacks.map (fun cb => (cb.1, cb.2, n.func []))) := by
  have hready : n.isReady = true := by
    unfold GNode.isReady
    rw [h]
    rfl
  unfold GNode.run
  rw [hready, h]
  simp

theorem GNode.isReady_iff (n : GNode V) :
    n.isReady = true ↔ ∀ j < n.slots.length, (n.slots.getD j none).isSome = true := by
  unfold GNode.isReady
  rw [foldl_and_eq_all, Bool.true_and]
  have h : (n.slots.map Option.isSome).all (fun c => c) = n.slots.all Option.isSome := by
    induction n.slots with
    | nil => rfl
    | cons x l ih => simp [List.all_cons, ih]
  rw [h]
  exact allSome_iff n.slots

theorem GNode.not_isReady_iff (n : GNode V) :
    n.isReady = false ↔ ∃ j, j < n.slots.length ∧ n.slots.getD j none = none := by
  rw [← Bool.not_eq_true, GNode.isReady_iff]
  push_neg
  constructor
  · rintro ⟨j, hj, hs⟩
    refine ⟨j, hj, ?_⟩
    cases hx : n.slots.getD j none with
    | none => rfl
    | some v => rw [hx] at hs; simp at hs
  · rintro ⟨j, hj, hs⟩
    exact ⟨j, hj, by rw [hs]; simp⟩

/-! ### FoldNode helper lemmas -/

theorem FoldNode.add_buffered (n : FoldNode O T) (t : T)
    (hb : n.computeInInputNode = false) :
    n.add t = { n with buffer := n.buffer ++ [t] } := by
  simp [FoldNode.add, hb]

theorem FoldNode.add_counters (n : FoldNode O T) (t : T) :
    (n.add t).inputsReadyCount = n.inputsReadyCount ∧
    (n.add t).inputsDeclaredCount = n.inputsDeclaredCount := by
  unfold FoldNode.add
  split <;> exact ⟨rfl, rfl⟩

theorem foldl_add_buffered (n : FoldNode O T) (ts : List T)
    (hb : n.computeInInputNode = false) :
    ts.foldl FoldNode.add n = { n with buffer := n.buffer ++ ts } := by
  induction ts generalizing n with
  | nil => simp
  | cons t ts ih =>
    rw [List.foldl_cons, FoldNode.add_buffered n t hb]
    rw [ih { n with buffer := n.buffer ++ [t] } hb]
    simp

theorem foldl_add_counters (n : FoldNode O T) (ts : List T) :
    (ts.foldl FoldNode.add n).inputsReadyCount = n.inputsReadyCount ∧
    (ts.foldl FoldNode.add n).inputsDeclaredCount = n.inputsDeclaredCount := by
  induction ts generalizing n with
  | nil => exact ⟨rfl, rfl⟩
  | cons t ts ih =>
    have h := ih (n.add t)
    have h1 := FoldNode.add_counters n t
    exact ⟨by rw [List.foldl_cons, h.1, h1.1], by rw [List.foldl_cons, h.2, h1.2]⟩

theorem foldl_add_eager_value (n : FoldNode O T) (ts : List T)
    (he : n.computeInInputNode = true) (c : O) (hc : n.currentValue = some c) :
    (ts.foldl FoldNode.add n).currentValue = some (ts.foldl n.foldFunction c) := by
  induction ts generalizing n c with
  | nil => simpa using hc
  | cons t ts ih =>
    rw [List.foldl_cons, List.foldl_cons]
    have hadd : n.add t = { n with currentValue := some (n.foldFunction c t) } := by
      simp [FoldNode.add, he, hc]
    rw [hadd]
    exact ih { n with currentValue := some (n.foldFunction c t) } he (n.foldFunction c t) rfl

/-! ### Claim C1 -/

/-- Claim C1: for every node, run fails with kind InputsNotReady exactly
when some input slot is unset; when all slots are set, run invokes the
computation on the stored inputs, stores the result, and fires every output
callback in registration order with the result. -/
theorem claimC1_node_run_contract (V : Type) (n : GNode V) :
    (n.run = Except.error RunError.inputsNotReady ↔
      ∃ j, j < n.slots.length ∧ n.slots.getD j none = none) ∧
    (n.isReady = true →
      n.run = Except.ok
        ({ n with result := some (n.func n.slots.reduceOption) },
          n.callbacks.map (fun cb => (cb.1, cb.2, n.func n.slots.reduceOption)))) := by
  constructor
  · rw [← GNode.not_isReady_iff]
    cases hI : n.isReady
    · simp [GNode.run, hI]
    · simp [GNode.run, hI]
  · intro h
    simp [GNode.run, h]

/-- Witness for claim C1 at a concrete ready node. -/
theorem claimC1_witness :
    demoReadyNode.isReady = true ∧
    demoReadyNode.run = Except.ok
      ({ demoReadyNode with
          result := some (demoReadyNode.func demoReadyNode.slots.reduceOption) },
        demoReadyNode.callbacks.map
          (fun cb => (cb.1, cb.2, demoReadyNode.func demoReadyNode.slots.reduceOption))) :=
  ⟨by decide, (claimC1_node_run_contract Nat demoReadyNode).2 (by decide)⟩

/-! ### Claim C10 -/

/-- Claim C10: when run fails because some input slot is unset, the node
and the whole graph state are unchanged: the error return carries the
untouched graph, so no result is stored, no output callback fires and no
successor slot is written. -/
theorem claimC10_run_error_atomic (V : Type) (g : List (GNode V)) (i : Nat)
    (nd : GNode V) (h1 : g.get? i = some nd) (h2 : nd.isReady = false) :
    runNodeAt g i = (some RunError.inputsNotReady, g) ∧
    nd.run = Except.error RunError.inputsNotReady := by
  have hr : nd.run = Except.error RunError.inputsNotReady := by
    simp [GNode.run, h2]
  exact ⟨by rw [runNodeAt_of_get g i nd h1, hr], hr⟩

/-- Witness for claim C10 at a concrete unready node. -/
theorem claimC10_witness :
    runNodeAt demoBadGraph 0 = (some RunError.inputsNotReady, demoBadGraph) ∧
    demoUnreadyNode.run = Except.error RunError.inputsNotReady :=
  claimC10_run_error_atomic Nat demoBadGraph 0 demoUnreadyNode rfl (by decide)

/-! ### Claim C9 -/

/-- Claim C9: with startDelayed false, the Periodic strategy schedules the
next occurrence at period from now before running the body, while the
Interval strategy runs the body to completion first and only then schedules
the next occurrence at period measured from the completion of the body. -/
theorem claimC9_submitRepeatable_order (J : Type) (job : J) (period : Nat) :
    submitRepeatable job period RepeatableStrategy.Periodic false =
      [PoolEvent.scheduleNext period, PoolEvent.runBody job] ∧
    submitRepeatable job period RepeatableStrategy.Interval false =
      [PoolEvent.runBody job, PoolEvent.scheduleNext period] :=
  ⟨rfl, rfl⟩

/-! ### Claim C4 -/

theorem FoldNode.deliver_fields (n : FoldNode O T) (t : T) :
    (n.deliver t).inputsDeclaredCount = n.inputsDeclaredCount ∧
    (n.deliver t).inputsReadyCount = n.inputsReadyCount + 1 ∧
    (n.deliver t).computeInInputNode = n.computeInInputNode ∧
    (n.deliver t).currentValue.isSome = n.currentValue.isSome := by
  unfold FoldNode.deliver FoldNode.add
  split
  · exact ⟨rfl, rfl, rfl, by cases n.currentValue <;> rfl⟩
  · exact ⟨rfl, rfl, rfl, rfl⟩

theorem connectFrom_iterate (n : FoldNode O T) (k : Nat) :
    FoldNode.connectFrom^[k] n =
      { n with inputsDeclaredCount := n.inputsDeclaredCount + k } := by
  induction k with
  | zero => simp
  | succ m ih =>
    rw [Function.iterate_succ_apply', ih]
    simp [FoldNode.connectFrom, Nat.add_assoc]

theorem foldl_deliver_buffered (n : FoldNode O T) (ts : List T)
    (hb : n.computeInInputNode = false) :
    ts.foldl FoldNode.deliver n =
      { n with
        buffer := n.buffer ++ ts
        inputsReadyCount := n.inputsReadyCount + ts.length } := by
  induction ts generalizing n with
  | nil => simp
  | cons t ts ih =>
    rw [List.foldl_cons]
    have hd : n.deliver t = { n with
        buffer := n.buffer ++ [t]
        inputsReadyCount := n.inputsReadyCount + 1 } := by
      simp [FoldNode.deliver, FoldNode.add, hb]
    rw [hd, ih { n with
        buffer := n.buffer ++ [t]
        inputsReadyCount := n.inputsReadyCount + 1 } hb]
    simp [Nat.add_assoc, Nat.add_comm 1]

/-- Claim C4: for a buffered fold node, every add appends the arrival to
the internal buffer; run — whose readiness check virtually dispatches to
the fold's own declared-equals-ready counter test — produces the left fold
of the fold function over the buffered values in arrival order starting
from init, and throws when some connected producer has not delivered yet.
In particular a fold node whose connected producers have all delivered
computes exactly the left fold of the delivered values. -/
theorem claimC4_buffered_fold (O T : Type) (n : FoldNode O T) (t : T)
    (hb : n.computeInInputNode = false) :
    (n.add t).buffer = n.buffer ++ [t] ∧
    (n.isReady = true →
      n.run = Except.ok { n with
        result := some (n.buffer.foldl n.foldFunction n.init) }) ∧
    (n.isReady = false → n.run = Except.error RunError.inputsNotReady) ∧
    (∀ (f : O → T → O) (init : O) (ts : List T),
      (ts.foldl FoldNode.deliver
          (FoldNode.connectFrom^[ts.length] (mkFoldNode false f init))).run =
        Except.ok { ts.foldl FoldNode.deliver
            (FoldNode.connectFrom^[ts.length] (mkFoldNode false f init)) with
          result := some (ts.foldl f init) }) := by
  refine ⟨by rw [FoldNode.add_buffered n t hb], ?_, ?_, ?_⟩
  · intro hrd
    simp [FoldNode.run, hb, hrd]
  · intro hrd
    simp [FoldNode.run, hb, hrd]
  · intro f init ts
    have hit : FoldNode.connectFrom^[ts.length] (mkFoldNode false f init) =
        { mkFoldNode false f init with inputsDeclaredCount := ts.length } := by
      rw [connectFrom_iterate]
      simp [mkFoldNode]
    rw [hit, foldl_deliver_buffered _ ts rfl]
    simp [FoldNode.run, FoldNode.isReady, mkFoldNode]

/-- Witness for claim C4: three producers connected and delivered into a
concrete buffered fold, whose readiness counters agree, so run folds the
buffer. -/
theorem claimC4_witness :
    (([1, 2, 3] : List Nat).foldl FoldNode.deliver
        (FoldNode.connectFrom^[3] (mkFoldNode false (fun a b => a + b) (10 : Nat)))).run =
      Except.ok { ([1, 2, 3] : List Nat).foldl FoldNode.deliver
          (FoldNode.connectFrom^[3] (mkFoldNode false (fun a b => a + b) (10 : Nat))) with
        result := some 16 } := by
  have h := (claimC4_buffered_fold Nat Nat
      (mkFoldNode false (fun a b => a + b) 10) 0 rfl).2.2.2
      (fun a b => a + b) 10 [1, 2, 3]
  have e : (([1, 2, 3] : List Nat).foldl (fun a b => a + b) 10) = 16 := by decide
  rw [e] at h
  exact h

/-! ### Claim C5 -/

/-- Claim C5: a fold node is ready exactly when the ready-inputs counter R
equals the declared-inputs counter D; every connectFrom increments D by one
at connect time; every upstream firing increments R by exactly one, also
through the vector overload, which delivers every element of the produced
vector (appending them all to the buffer in buffered mode, folding them all
in eager mode) while still counting a single R increment. -/
theorem claimC5_fold_counters (O T : Type) (n : FoldNode O T) (t : T) (ts : List T) :
    (n.isReady = true ↔ n.inputsReadyCount = n.inputsDeclaredCount) ∧
    (n.connectFrom.inputsDeclaredCount = n.inputsDeclaredCount + 1 ∧
     n.connectFrom.inputsReadyCount = n.inputsReadyCount) ∧
    ((n.deliver t).inputsReadyCount = n.inputsReadyCount + 1 ∧
     (n.deliver t).inputsDeclaredCount = n.inputsDeclaredCount) ∧
    ((n.deliverVec ts).inputsReadyCount = n.inputsReadyCount + 1 ∧
     (n.deliverVec ts).inputsDeclaredCount = n.inputsDeclaredCount) ∧
    (n.computeInInputNode = false → (n.deliverVec ts).buffer = n.buffer ++ ts) ∧
    (n.computeInInputNode = true → ∀ c, n.currentValue = some c →
      (n.deliverVec ts).currentValue = some (ts.foldl n.foldFunction c)) := by
  refine ⟨?_, ⟨rfl, rfl⟩, ?_, ?_, ?_, ?_⟩
  · unfold FoldNode.isReady
    rw [beq_iff_eq]
    exact eq_comm
  · have h := FoldNode.add_counters n t
    exact ⟨by simp [FoldNode.deliver, h.1], by simp [FoldNode.deliver, h.2]⟩
  · by_cases hc : n.computeInInputNode
    · have h := foldl_add_counters n ts
      constructor
      · simp only [FoldNode.deliverVec, hc, if_true]
        rw [h.1]
      · simp only [FoldNode.deliverVec, hc, if_true]
        rw [h.2]
    · simp [FoldNode.deliverVec, hc]
  · intro hb
    simp [FoldNode.deliverVec, hb]
  · intro he c hc
    simp only [FoldNode.deliverVec, he, if_true]
    exact foldl_add_eager_value n ts he c hc

/-- Witness for claim C5: a vector delivery of three elements to a connected
buffered fold bumps R by one and appends all three elements. -/
theorem claimC5_witness :
    (((mkFoldNode false (fun a b => a + b) (0 : Nat)).connectFrom.deliverVec
        [4, 5, 6]).inputsReadyCount = 1) ∧
    (((mkFoldNode false (fun a b => a + b) (0 : Nat)).connectFrom.deliverVec
        [4, 5, 6]).buffer = [4, 5, 6]) :=
  ⟨((claimC5_fold_counters Nat Nat
      (mkFoldNode false (fun a b => a + b) 0).connectFrom 0 [4, 5, 6]).2.2.2.1).1,
   by
    have h := (claimC5_fold_counters Nat Nat
      (mkFoldNode false (fun a b => a + b) 0).connectFrom 0 [4, 5, 6]).2.2.2.2.1 rfl
    simpa using h⟩

/-! ### Claim C6 -/

/-- Claim C6 counterexample: a freshly constructed eager fold node has not
fired (its stored result is still unengaged and run was never invoked), yet
getResult returns an engaged optional holding the init value instead of the
no-value marker. -/
theorem claimC6_counterexample :
    (mkFoldNode true (fun a b => a + b) (0 : Nat) : FoldNode Nat Nat).getResult
        = some 0 ∧
    (mkFoldNode true (fun a b => a + b) (0 : Nat) : FoldNode Nat Nat).result
        = none :=
  ⟨rfl, rfl⟩

/-- Claim C6 amended: plain nodes and buffered fold nodes return the stored
optional result, which is unengaged until the node fires and holds the
output afterwards; an eager fold node instead returns its current
accumulator value, an engaged optional even before the node has fired,
which equals the output once the node has fired. -/
theorem claimC6_getResult (V O T : Type) (n : GNode V) (fb fe : FoldNode O T) :
    (n.getResult = n.result ∧
      (∀ nd2 ev, n.run = Except.ok (nd2, ev) →
        nd2.getResult = some (n.func n.slots.reduceOption))) ∧
    (fb.computeInInputNode = false →
      fb.getResult = fb.result ∧
      (∀ (f : O → T → O) (i : O),
        (mkFoldNode false f i : FoldNode O T).getResult = none) ∧
      (∀ m, fb.run = Except.ok m → fb.inputsSet0 = true →
        m.getResult = some (fb.buffer.foldl fb.foldFunction fb.init))) ∧
    (fe.computeInInputNode = true →
      fe.getResult = fe.currentValue ∧
      (∀ m, fe.run = Except.ok m → m.getResult = fe.currentValue)) := by
  refine ⟨⟨rfl, ?_⟩, ?_, ?_⟩
  · intro nd2 ev h
    cases hI : n.isReady
    · simp [GNode.run, hI] at h
    · simp [GNode.run, hI] at h
      rw [← h.1]
      rfl
  · intro hb
    refine ⟨by simp [FoldNode.getResult, hb], fun f i => rfl, ?_⟩
    intro m h h0
    cases hrd : fb.isReady with
    | false => simp [FoldNode.run, hb, hrd] at h
    | true =>
      simp [FoldNode.run, hb, hrd] at h
      rw [← h]
      simp [FoldNode.getResult, hb]
  · intro he
    refine ⟨by simp [FoldNode.getResult, he], ?_⟩
    intro m h
    simp [FoldNode.run, he] at h
    rw [← h]
    simp [FoldNode.getResult, he]

/-- Witness for claim C6 at a concrete buffered fold node. -/
theorem claimC6_witness :
    (mkFoldNode false (fun a b => a + b) (5 : Nat) : FoldNode Nat Nat).getResult
      = none :=
  ((claimC6_getResult Nat Nat Nat demoReadyNode
      (mkFoldNode false (fun a b => a + b) 5)
      (mkFoldNode true (fun a b => a + b) 5)).2.1 rfl).2.1
    (fun a b => a + b) 5

/-! ### Claim C7 -/

/-- Claim C7 counterexample: id 1 lies outside the node vector of a
one-leaf graph, so it does not refer to a leaf, yet setInput does not fail
with BadInputNode there: indexing the vector out of range is undefined
behaviour. -/
theorem claimC7_counterexample :
    setInput tgOneLeaf 1 0 7 = SetInputOutcome.undefinedBehavior ∧
    (SetInputOutcome.undefinedBehavior ≠
      (SetInputOutcome.badInputNode : SetInputOutcome Nat)) :=
  ⟨rfl, fun h => SetInputOutcome.noConfusion h⟩

/-- Claim C7 amended: for an id within the node vector, setInput fails with
BadInputNode exactly when the stored node is not an arity zero node whose
output type matches the value type; on success the leaf computation becomes
the constant returning v, so a subsequent run of the leaf produces v and
feeds v to its callbacks. For an id outside the vector the call indexes the
vector out of range, which is undefined behaviour, not a guaranteed
BadInputNode failure. -/
theorem claimC7_setInput (V : Type) (g : List (TypedNode V)) (idx ty : Nat) (v : V) :
    (g.get? idx = none → setInput g idx ty v = SetInputOutcome.undefinedBehavior) ∧
    (∀ tn, g.get? idx = some tn →
      (setInput g idx ty v = SetInputOutcome.badInputNode ↔
        ¬(tn.inTys = [] ∧ tn.outTy = ty)) ∧
      (tn.inTys = [] ∧ tn.outTy = ty →
        setInput g idx ty v = SetInputOutcome.ok (setConstFunc v idx g) ∧
        ∀ t2, (setConstFunc v idx g).get? idx = some t2 →
          (t2.node.func = fun _ => v) ∧
          (t2.node.slots = [] →
            t2.node.run = Except.ok ({ t2.node with result := some v },
              t2.node.callbacks.map (fun cb => (cb.1, cb.2, v)))))) := by
  constructor
  · intro h
    exact setInput_none g idx ty v h
  · intro tn htn
    have hcond : (tn.inTys.isEmpty && (tn.outTy == ty)) = true ↔
        (tn.inTys = [] ∧ tn.outTy = ty) := by
      cases tn.inTys <;> simp
    have hs := setInput_some g idx ty v tn htn
    constructor
    · by_cases hc : tn.inTys = [] ∧ tn.outTy = ty
      · have hb : (tn.inTys.isEmpty && (tn.outTy == ty)) = true := hcond.mpr hc
        rw [hs, hb]
        simp [hc]
      · have hb : (tn.inTys.isEmpty && (tn.outTy == ty)) = false := by
          cases hx : (tn.inTys.isEmpty && (tn.outTy == ty))
          · rfl
          · exact absurd (hcond.mp hx) hc
        rw [hs, hb]
        simp [hc]
    · intro hc
      have hb : (tn.inTys.isEmpty && (tn.outTy == ty)) = true := hcond.mpr hc
      refine ⟨by rw [hs, hb]; simp, ?_⟩
      intro t2 ht2
      have hg : (setConstFunc v idx g).get? idx =
          some { tn with node := { tn.node with func := fun _ => v } } := by
        unfold setConstFunc
        rw [listModify_get_self, htn]
        rfl
      rw [hg] at ht2
      have ht2e : t2 = { tn with node := { tn.node with func := fun _ => v } } := by
        injection ht2 with h2
        exact h2.symm
      subst ht2e
      refine ⟨rfl, ?_⟩
      intro hslots
      have hslots2 : tn.node.slots = [] := hslots
      exact GNode.run_nullary { tn.node with func := fun _ => v } hslots2

/-- Witness for claim C7: a fold-backed node of arity one is rejected with
BadInputNode, and a genuine leaf accepts the value. -/
theorem claimC7_witness :
    setInput tgLeafAndFold 1 0 9 = SetInputOutcome.badInputNode ∧
    setInput tgOneLeaf 0 0 9 = SetInputOutcome.ok (setConstFunc 9 0 tgOneLeaf) :=
  ⟨((claimC7_setInput Nat tgLeafAndFold 1 0 9).2 _ rfl).1.mpr (by decide),
   (((claimC7_setInput Nat tgOneLeaf 0 0 9).2 _ rfl).2 ⟨rfl, rfl⟩).1⟩

/-! ### DelayQueue lemmas and claim C8 -/

theorem beats_iff (s : Nat) (a b : QElem V) :
    beats s a b = true ↔ (popMoment s a < popMoment s b ∨
      (popMoment s a = popMoment s b ∧ readyTime a < readyTime b)) := by
  simp [beats]

theorem beats_false_not (s : Nat) (a b : QElem V) (h : beats s a b = false) :
    ¬(popMoment s a < popMoment s b ∨
      (popMoment s a = popMoment s b ∧ readyTime a < readyTime b)) := by
  intro hc
  rw [(beats_iff s a b).mpr hc] at h
  exact Bool.noConfusion h

theorem beats_irrefl (s : Nat) (a : QElem V) : beats s a a = false := by
  cases h : beats s a a
  · rfl
  · exfalso
    rcases (beats_iff s a a).mp h with h1 | h2
    · omega
    · omega

theorem beats_asymm (s : Nat) (a b : QElem V) (h : beats s a b = true) :
    beats s b a = false := by
  cases hx : beats s b a
  · rfl
  · exfalso
    have ha := (beats_iff s a b).mp h
    have hb := (beats_iff s b a).mp hx
    rcases ha with h1 | h2 <;> rcases hb with h3 | h4 <;> omega

theorem beats_trans_false (s : Nat) (a b c : QElem V)
    (h1 : beats s b c = false) (h2 : beats s a b = false) :
    beats s a c = false := by
  cases hx : beats s a c
  · rfl
  · exfalso
    have hna := beats_false_not s b c h1
    have hnb := beats_false_not s a b h2
    have hc := (beats_iff s a c).mp hx
    rcases hc with h3 | h4 <;> omega

theorem beats_of_ready_lt (s : Nat) (a b : QElem V)
    (h : readyTime a < readyTime b) : beats s a b = true := by
  rw [beats_iff]
  have h1 : popMoment s a ≤ popMoment s b :=
    max_le_max (Nat.le_refl s) (Nat.le_of_lt h)
  rcases Nat.lt_or_ge (popMoment s a) (popMoment s b) with hlt | hge
  · exact Or.inl hlt
  · exact Or.inr ⟨Nat.le_antisymm h1 hge, h⟩

theorem popWait_cons (start : Nat) (e : QElem V) (rest : List (QElem V)) :
    popWait start (e :: rest) =
      match popWait start rest with
      | none => some (e, popMoment start e, [])
      | some (e2, t2, rem) =>
        if beats start e2 e then some (e2, t2, e :: rem)
        else some (e, popMoment start e, rest) := rfl

/-- Specification of one popWait call: it returns some element of the queue
at its pop moment, the rest of the queue is a permutation of the remainder,
and no element of the queue strictly beats the returned one. -/
theorem popWait_spec (start : Nat) (l : List (QElem V)) (hne : l ≠ []) :
    ∃ c t rem, popWait start l = some (c, t, rem) ∧
      l.Perm (c :: rem) ∧ t = popMoment start c ∧
      ∀ e ∈ l, beats start e c = false := by
  induction l with
  | nil => exact absurd rfl hne
  | cons e rest ih =>
    cases rest with
    | nil =>
      refine ⟨e, popMoment start e, [], rfl, List.Perm.refl _, rfl, ?_⟩
      intro x hx
      have hxe : x = e := by simpa using hx
      subst hxe
      exact beats_irrefl start x
    | cons e' rest' =>
      obtain ⟨c2, t2, rem2, heq, hperm, ht2, hmin⟩ := ih (by simp)
      have hstep : popWait start (e :: e' :: rest') =
          if beats start c2 e then some (c2, t2, e :: rem2)
          else some (e, popMoment start e, e' :: rest') := by
        rw [popWait_cons, heq]
      by_cases hb : beats start c2 e
      · refine ⟨c2, t2, e :: rem2, by rw [hstep, if_pos hb], ?_, ht2, ?_⟩
        · exact (hperm.cons e).trans (List.Perm.swap c2 e rem2)
        · intro x hx
          rcases List.mem_cons.mp hx with hxe | hxr
          · subst hxe
            exact beats_asymm start c2 x hb
          · exact hmin x hxr
      · have hbf : beats start c2 e = false := by
          cases hx : beats start c2 e
          · rfl
          · exact absurd hx hb
        refine ⟨e, popMoment start e, e' :: rest',
          by rw [hstep, if_neg hb], List.Perm.refl _, rfl, ?_⟩
        intro x hx
        rcases List.mem_cons.mp hx with hxe | hxr
        · subst hxe
          exact beats_irrefl start x
        · exact beats_trans_false start x c2 e hbf (hmin x hxr)

theorem popAll_ordering_aux (V : Type) [DecidableEq V] :
    ∀ (fuel : Nat) (start : Nat) (l : List (QElem V)) (e1 e2 : QElem V),
      fuel = l.length →
      e1 ∈ l → e2 ∈ l →
      (∀ e ∈ l, e.val = e1.val → e = e1) →
      (∀ e ∈ l, e.val = e2.val → e = e2) →
      readyTime e1 < readyTime e2 →
      (popAllFuel fuel start l).indexOf e1.val <
        (popAllFuel fuel start l).indexOf e2.val := by
  intro fuel
  induction fuel with
  | zero =>
    intro start l e1 e2 hf h1
    have hl : l = [] := by
      cases l with
      | nil => rfl
      | cons a as => exact absurd hf (by simp)
    subst hl
    simp at h1
  | succ f ih =>
    intro start l e1 e2 hf h1 h2 hu1 hu2 hrt
    have hne : l ≠ [] := by
      intro h
      subst h
      simp at h1
    obtain ⟨c, t, rem, heq, hperm, ht, hmin⟩ := popWait_spec start l hne
    have hcmem : c ∈ l := hperm.mem_iff.mpr (List.mem_cons_self c rem)
    have hne12 : e1 ≠ e2 := by
      intro h
      subst h
      omega
    have hv12 : e1.val ≠ e2.val := fun h => hne12 (hu2 e1 h1 h)
    have hc_ne_e2 : c ≠ e2 := by
      intro h
      subst h
      have hb := beats_of_ready_lt start e1 c hrt
      rw [hmin e1 h1] at hb
      exact Bool.noConfusion hb
    have hstep : popAllFuel (f + 1) start l = c.val :: popAllFuel f t rem := by
      simp [popAllFuel, heq]
    rw [hstep]
    have hcv2 : c.val ≠ e2.val := fun h => hc_ne_e2 (hu2 c hcmem h)
    by_cases hce1 : c = e1
    · subst hce1
      have hidx1 : (c.val :: popAllFuel f t rem).indexOf c.val = 0 :=
        List.indexOf_cons_self c.val _
      have hidx2 : (c.val :: popAllFuel f t rem).indexOf e2.val =
          (popAllFuel f t rem).indexOf e2.val + 1 :=
        List.indexOf_cons_ne _ hcv2
      rw [hidx1, hidx2]
      omega
    · have hcv1 : c.val ≠ e1.val := fun h => hce1 (hu1 c hcmem h)
      have hmem1 : e1 ∈ rem := by
        have hx := hperm.mem_iff.mp h1
        rcases List.mem_cons.mp hx with hh | hh
        · exact absurd hh.symm hce1
        · exact hh
      have hmem2 : e2 ∈ rem := by
        have hx := hperm.mem_iff.mp h2
        rcases List.mem_cons.mp hx with hh | hh
        · exact absurd hh.symm hc_ne_e2
        · exact hh
      have hu1r : ∀ e ∈ rem, e.val = e1.val → e = e1 := fun e he =>
        hu1 e (hperm.mem_iff.mpr (List.mem_cons_of_mem c he))
      have hu2r : ∀ e ∈ rem, e.val = e2.val → e = e2 := fun e he =>
        hu2 e (hperm.mem_iff.mpr (List.mem_cons_of_mem c he))
      have hflen : f = rem.length := by
        have hl := hperm.length_eq
        simp at hl
        omega
      have hrec := ih t rem e1 e2 hflen hmem1 hmem2 hu1r hu2r hrt
      have hidx1 : (c.val :: popAllFuel f t rem).indexOf e1.val =
          (popAllFuel f t rem).indexOf e1.val + 1 :=
        List.indexOf_cons_ne _ hcv1
      have hidx2 : (c.val :: popAllFuel f t rem).indexOf e2.val =
          (popAllFuel f t rem).indexOf e2.val + 1 :=
        List.indexOf_cons_ne _ hcv2
      rw [hidx1, hidx2]
      omega

/-- Claim C8: on the delay queue, for any two pushes at the same logical
instant with strictly smaller delay on the first, the first is popped before
the second; and a zero-delay push is popped before any element pushed
earlier whose positive delay has not yet elapsed at the moment of the push.
Both cases force a strictly earlier ready time, and successive popWait
calls return earlier-ready elements first. -/
theorem claimC8_delay_queue_order (V : Type) [DecidableEq V] (start : Nat)
    (l : List (QElem V)) (e1 e2 : QElem V)
    (h1 : e1 ∈ l) (h2 : e2 ∈ l)
    (hu1 : ∀ e ∈ l, e.val = e1.val → e = e1)
    (hu2 : ∀ e ∈ l, e.val = e2.val → e = e2)
    (hcase : (e1.pushTime = e2.pushTime ∧ e1.delay < e2.delay) ∨
      (e1.delay = 0 ∧ e2.pushTime ≤ e1.pushTime ∧ e1.pushTime < readyTime e2)) :
    (popAllQ start l).indexOf e1.val < (popAllQ start l).indexOf e2.val := by
  have hrt : readyTime e1 < readyTime e2 := by
    unfold readyTime at hcase ⊢
    rcases hcase with ⟨hp, hd⟩ | ⟨hz, hp, hlt⟩ <;> omega
  exact popAll_ordering_aux V l.length start l e1 e2 rfl h1 h2 hu1 hu2 hrt

/-- Witness for claim C8: the delayed submission scenario, J1 pushed at
time 0 with delay 10, J2 pushed at time 2 with delay 0; the queue returns
J2 (value 2) and then J1 (value 1). -/
theorem claimC8_witness :
    popAllQ 0 scenarioElems = [2, 1] ∧
    (popAllQ 0 scenarioElems).indexOf (2 : Nat) <
      (popAllQ 0 scenarioElems).indexOf (1 : Nat) :=
  ⟨by decide,
   claimC8_delay_queue_order Nat 0 scenarioElems
     { val := 2, delay := 0, pushTime := 2 }
     { val := 1, delay := 10, pushTime := 0 }
     (by decide) (by decide) (by decide) (by decide)
     (Or.inr ⟨rfl, by decide, by decide⟩)⟩

/-! ### Scheduler lemmas: boolean flag vectors -/

theorem flagSet_self (l : List Bool) (c : Nat) (h : c < l.length) :
    (l.set c true).getD c false = true := by
  rw [listGetD_eq_get?, listSet_get_self l c true h]
  rfl

theorem flagSet_other (l : List Bool) (c d : Nat) (h : c ≠ d) :
    (l.set c true).getD d false = l.getD d false := by
  rw [listGetD_eq_get?, listSet_get_other l c d true h, ← listGetD_eq_get?]

theorem flag_replicate (n c : Nat) :
    (List.replicate n false).getD c false = false := by
  induction n generalizing c with
  | zero => cases c <;> rfl
  | succ m ih =>
    cases c with
    | zero => rfl
    | succ d => exact ih d

theorem count_false_set_true (l : List Bool) (c : Nat) (h : c < l.length)
    (h2 : l.getD c false = false) :
    (l.set c true).count false + 1 = l.count false := by
  induction l generalizing c with
  | nil => simp at h
  | cons b l ih =>
    cases c with
    | zero =>
      have hb : b = false := h2
      subst hb
      simp [List.count_cons]
    | succ d =>
      have := ih d (by simpa using h) (by simpa [List.getD] using h2)
      simp only [List.set, List.count_cons]
      omega

theorem getD_false_lt (l : List Bool) (c : Nat) (h : l.getD c false = true) :
    c < l.length := by
  by_contra hc
  push_neg at hc
  rw [listGetD_eq_get?, List.get?_len_le hc] at h
  exact Bool.noConfusion h


/-! ### Scheduler lemmas: graph accessors -/

theorem get?_lt_of_some {g : List α} {c : Nat} {nd : α}
    (hg : g.get? c = some nd) : c < g.length := by
  by_contra hc
  push_neg at hc
  rw [List.get?_len_le hc] at hg
  exact Option.noConfusion hg

theorem get?_some_of_lt (g : List α) (c : Nat) (h : c < g.length) :
    ∃ nd, g.get? c = some nd :=
  ⟨g.get ⟨c, h⟩, List.get?_eq_get h⟩

theorem callbacksAt_of_get {g : List (SchedNode V)} {c : Nat} {sn : SchedNode V}
    (hg : g.get? c = some sn) : callbacksAt g c = sn.callbacks := by
  unfold callbacksAt
  rw [hg]

theorem outputsAt_of_get {g : List (SchedNode V)} {c : Nat} {sn : SchedNode V}
    (hg : g.get? c = some sn) : outputsAt g c = sn.outputs := by
  unfold outputsAt
  rw [hg]

theorem slotsLen_of_get_plain {g : List (SchedNode V)} {c : Nat}
    {slots : List (Option V)} {res : Option V} {f : List V → V}
    {cbs : List (Nat × Handler)} {outs : List Nat} {idv : Nat}
    (hg : g.get? c = some ⟨NodeCore.plain slots res f, cbs, outs, idv⟩) :
    slotsLen g c = slots.length := by
  unfold slotsLen
  rw [hg]

theorem slotsLen_of_get_fold {g : List (SchedNode V)} {c : Nat}
    {fn : FoldNode V V} {cbs : List (Nat × Handler)} {outs : List Nat} {idv : Nat}
    (hg : g.get? c = some ⟨NodeCore.fold fn, cbs, outs, idv⟩) :
    slotsLen g c = 0 := by
  unfold slotsLen
  rw [hg]

theorem slotSet_of_get_plain {g : List (SchedNode V)} {c : Nat}
    {slots : List (Option V)} {res : Option V} {f : List V → V}
    {cbs : List (Nat × Handler)} {outs : List Nat} {idv : Nat} (j : Nat)
    (hg : g.get? c = some ⟨NodeCore.plain slots res f, cbs, outs, idv⟩) :
    slotSet g c j = (slots.getD j none).isSome := by
  unfold slotSet
  rw [hg]

theorem slotSet_of_get_fold {g : List (SchedNode V)} {c : Nat}
    {fn : FoldNode V V} {cbs : List (Nat × Handler)} {outs : List Nat} {idv : Nat} (j : Nat)
    (hg : g.get? c = some ⟨NodeCore.fold fn, cbs, outs, idv⟩) :
    slotSet g c j = false := by
  unfold slotSet
  rw [hg]

theorem slotSet_of_none {g : List (SchedNode V)} {c : Nat} (j : Nat)
    (hg : g.get? c = none) : slotSet g c j = false := by
  unfold slotSet
  rw [hg]

theorem isReadyAt_of_get_plain {g : List (SchedNode V)} {c : Nat}
    {slots : List (Option V)} {res : Option V} {f : List V → V}
    {cbs : List (Nat × Handler)} {outs : List Nat} {idv : Nat}
    (hg : g.get? c = some ⟨NodeCore.plain slots res f, cbs, outs, idv⟩) :
    isReadyAt g c = (slots.map Option.isSome).foldl (fun a b => a && b) true := by
  unfold isReadyAt
  rw [hg]

theorem isReadyAt_of_get_fold {g : List (SchedNode V)} {c : Nat}
    {fn : FoldNode V V} {cbs : List (Nat × Handler)} {outs : List Nat} {idv : Nat}
    (hg : g.get? c = some ⟨NodeCore.fold fn, cbs, outs, idv⟩) :
    isReadyAt g c = fn.isReady := by
  unfold isReadyAt
  rw [hg]

theorem isReadyAt_of_none {g : List (SchedNode V)} {c : Nat}
    (hg : g.get? c = none) : isReadyAt g c = false := by
  unfold isReadyAt
  rw [hg]

theorem isFoldAt_of_get_plain {g : List (SchedNode V)} {c : Nat}
    {slots : List (Option V)} {res : Option V} {f : List V → V}
    {cbs : List (Nat × Handler)} {outs : List Nat} {idv : Nat}
    (hg : g.get? c = some ⟨NodeCore.plain slots res f, cbs, outs, idv⟩) :
    isFoldAt g c = false := by
  unfold isFoldAt
  rw [hg]

theorem isFoldAt_of_get_fold {g : List (SchedNode V)} {c : Nat}
    {fn : FoldNode V V} {cbs : List (Nat × Handler)} {outs : List Nat} {idv : Nat}
    (hg : g.get? c = some ⟨NodeCore.fold fn, cbs, outs, idv⟩) :
    isFoldAt g c = true := by
  unfold isFoldAt
  rw [hg]

theorem isFoldAt_of_none {g : List (SchedNode V)} {c : Nat}
    (hg : g.get? c = none) : isFoldAt g c = false := by
  unfold isFoldAt
  rw [hg]

theorem Dof_of_get_plain {g : List (SchedNode V)} {c : Nat}
    {slots : List (Option V)} {res : Option V} {f : List V → V}
    {cbs : List (Nat × Handler)} {outs : List Nat} {idv : Nat}
    (hg : g.get? c = some ⟨NodeCore.plain slots res f, cbs, outs, idv⟩) :
    Dof g c = 0 := by
  unfold Dof
  rw [hg]

theorem Dof_of_get_fold {g : List (SchedNode V)} {c : Nat}
    {fn : FoldNode V V} {cbs : List (Nat × Handler)} {outs : List Nat} {idv : Nat}
    (hg : g.get? c = some ⟨NodeCore.fold fn, cbs, outs, idv⟩) :
    Dof g c = fn.inputsDeclaredCount := by
  unfold Dof
  rw [hg]

theorem Rof_of_get_plain {g : List (SchedNode V)} {c : Nat}
    {slots : List (Option V)} {res : Option V} {f : List V → V}
    {cbs : List (Nat × Handler)} {outs : List Nat} {idv : Nat}
    (hg : g.get? c = some ⟨NodeCore.plain slots res f, cbs, outs, idv⟩) :
    Rof g c = 0 := by
  unfold Rof
  rw [hg]

theorem Rof_of_get_fold {g : List (SchedNode V)} {c : Nat}
    {fn : FoldNode V V} {cbs : List (Nat × Handler)} {outs : List Nat} {idv : Nat}
    (hg : g.get? c = some ⟨NodeCore.fold fn, cbs, outs, idv⟩) :
    Rof g c = fn.inputsReadyCount := by
  unfold Rof
  rw [hg]

theorem Rof_of_none {g : List (SchedNode V)} {c : Nat}
    (hg : g.get? c = none) : Rof g c = 0 := by
  unfold Rof
  rw [hg]

theorem eagerAt_of_get_plain {g : List (SchedNode V)} {c : Nat}
    {slots : List (Option V)} {res : Option V} {f : List V → V}
    {cbs : List (Nat × Handler)} {outs : List Nat} {idv : Nat}
    (hg : g.get? c = some ⟨NodeCore.plain slots res f, cbs, outs, idv⟩) :
    eagerAt g c = false := by
  unfold eagerAt
  rw [hg]

theorem eagerAt_of_get_fold {g : List (SchedNode V)} {c : Nat}
    {fn : FoldNode V V} {cbs : List (Nat × Handler)} {outs : List Nat} {idv : Nat}
    (hg : g.get? c = some ⟨NodeCore.fold fn, cbs, outs, idv⟩) :
    eagerAt g c = fn.computeInInputNode := by
  unfold eagerAt
  rw [hg]

theorem engagedAt_of_get_plain {g : List (SchedNode V)} {c : Nat}
    {slots : List (Option V)} {res : Option V} {f : List V → V}
    {cbs : List (Nat × Handler)} {outs : List Nat} {idv : Nat}
    (hg : g.get? c = some ⟨NodeCore.plain slots res f, cbs, outs, idv⟩) :
    engagedAt g c = true := by
  unfold engagedAt
  rw [hg]

theorem engagedAt_of_get_fold {g : List (SchedNode V)} {c : Nat}
    {fn : FoldNode V V} {cbs : List (Nat × Handler)} {outs : List Nat} {idv : Nat}
    (hg : g.get? c = some ⟨NodeCore.fold fn, cbs, outs, idv⟩) :
    engagedAt g c = fn.currentValue.isSome := by
  unfold engagedAt
  rw [hg]

theorem engagedAt_of_none {g : List (SchedNode V)} {c : Nat}
    (hg : g.get? c = none) : engagedAt g c = true := by
  unfold engagedAt
  rw [hg]

theorem isReadyAt_true_lt (g : List (SchedNode V)) (c : Nat)
    (h : isReadyAt g c = true) : c < g.length := by
  cases hg : g.get? c with
  | none => rw [isReadyAt_of_none hg] at h; exact Bool.noConfusion h
  | some nd => exact get?_lt_of_some hg

theorem isFoldAt_true_lt (g : List (SchedNode V)) (c : Nat)
    (h : isFoldAt g c = true) : c < g.length := by
  cases hg : g.get? c with
  | none => rw [isFoldAt_of_none hg] at h; exact Bool.noConfusion h
  | some nd => exact get?_lt_of_some hg

theorem eagerAt_true_isFold (g : List (SchedNode V)) (c : Nat)
    (h : eagerAt g c = true) : isFoldAt g c = true := by
  cases hg : g.get? c with
  | none =>
    unfold eagerAt at h
    rw [hg] at h
    exact Bool.noConfusion h
  | some sn =>
    obtain ⟨core, cbs, outs, idv⟩ := sn
    cases core with
    | plain slots res f =>
      rw [eagerAt_of_get_plain hg] at h
      exact Bool.noConfusion h
    | fold fn => exact isFoldAt_of_get_fold hg

theorem plainSlots_ready_iff (slots : List (Option V)) :
    ((slots.map Option.isSome).foldl (fun a b => a && b) true = true) ↔
      ∀ j < slots.length, (slots.getD j none).isSome = true := by
  rw [foldl_and_eq_all, Bool.true_and]
  have h : (slots.map Option.isSome).all (fun c => c) = slots.all Option.isSome := by
    induction slots with
    | nil => rfl
    | cons x l ih => simp [List.all_cons, ih]
  rw [h]
  exact allSome_iff slots

theorem isReadyAt_plain_iff (g : List (SchedNode V)) (c : Nat) (h : c < g.length)
    (hpl : isFoldAt g c = false) :
    isReadyAt g c = true ↔ ∀ j < slotsLen g c, slotSet g c j = true := by
  obtain ⟨sn, hg⟩ := get?_some_of_lt g c h
  obtain ⟨core, cbs, outs, idv⟩ := sn
  cases core with
  | fold fn =>
    rw [isFoldAt_of_get_fold hg] at hpl
    exact Bool.noConfusion hpl
  | plain slots res f =>
    rw [isReadyAt_of_get_plain hg, slotsLen_of_get_plain hg]
    constructor
    · intro hr j hj
      rw [slotSet_of_get_plain j hg]
      exact (plainSlots_ready_iff slots).mp hr j hj
    · intro hs
      refine (plainSlots_ready_iff slots).mpr ?_
      intro j hj
      have h2 := hs j hj
      rw [slotSet_of_get_plain j hg] at h2
      exact h2

theorem isReadyAt_fold_iff (g : List (SchedNode V)) (c : Nat)
    (hf : isFoldAt g c = true) :
    (isReadyAt g c = true ↔ Dof g c = Rof g c) := by
  obtain ⟨sn, hg⟩ := get?_some_of_lt g c (isFoldAt_true_lt g c hf)
  obtain ⟨core, cbs, outs, idv⟩ := sn
  cases core with
  | plain slots res f =>
    rw [isFoldAt_of_get_plain hg] at hf
    exact Bool.noConfusion hf
  | fold fn =>
    rw [isReadyAt_of_get_fold hg, Dof_of_get_fold hg, Rof_of_get_fold hg]
    unfold FoldNode.isReady
    rw [beq_iff_eq]

/-! ### Scheduler lemmas: statics extraction -/

theorem statics_cbs {g g2 : List (SchedNode V)} {k : Nat}
    (h : staticsAt g2 k = staticsAt g k) : callbacksAt g2 k = callbacksAt g k :=
  congrArg NodeStatics.cbs h

theorem statics_outs {g g2 : List (SchedNode V)} {k : Nat}
    (h : staticsAt g2 k = staticsAt g k) : outputsAt g2 k = outputsAt g k :=
  congrArg NodeStatics.outs h

theorem statics_slen {g g2 : List (SchedNode V)} {k : Nat}
    (h : staticsAt g2 k = staticsAt g k) : slotsLen g2 k = slotsLen g k :=
  congrArg NodeStatics.slen h

theorem statics_isf {g g2 : List (SchedNode V)} {k : Nat}
    (h : staticsAt g2 k = staticsAt g k) : isFoldAt g2 k = isFoldAt g k :=
  congrArg NodeStatics.isf h

theorem statics_dcl {g g2 : List (SchedNode V)} {k : Nat}
    (h : staticsAt g2 k = staticsAt g k) : Dof g2 k = Dof g k :=
  congrArg NodeStatics.dcl h

theorem statics_egr {g g2 : List (SchedNode V)} {k : Nat}
    (h : staticsAt g2 k = staticsAt g k) : eagerAt g2 k = eagerAt g k :=
  congrArg NodeStatics.egr h

theorem handlerTyped_slot {g : List (SchedNode V)} {e : Nat × Handler} {j : Nat}
    (h : handlerTyped g e = true) (hj : e.2 = Handler.slot j) :
    isFoldAt g e.1 = false ∧ j < slotsLen g e.1 := by
  unfold handlerTyped at h
  rw [hj] at h
  simp only [Bool.and_eq_true, Bool.not_eq_true', decide_eq_true_eq] at h
  exact h

theorem handlerTyped_fold {g : List (SchedNode V)} {e : Nat × Handler}
    (h : handlerTyped g e = true) (hj : e.2 = Handler.foldDeliver) :
    isFoldAt g e.1 = true := by
  unfold handlerTyped at h
  rw [hj] at h
  exact h

theorem handlerTyped_transport {g g2 : List (SchedNode V)} {e : Nat × Handler}
    (hstat : staticsAt g2 e.1 = staticsAt g e.1) :
    handlerTyped g2 e = handlerTyped g e := by
  unfold handlerTyped
  cases hh : e.2 with
  | slot j => rw [statics_isf hstat, statics_slen hstat]
  | foldDeliver => rw [statics_isf hstat]

/-! ### Scheduler lemmas: event application -/

theorem applyEventS_length (g : List (SchedNode V)) (e : (Nat × Handler) × V) :
    (applyEventS g e).length = g.length := by
  unfold applyEventS
  exact listModify_length _ _ _

theorem applyEventS_get_self (g : List (SchedNode V)) (e : (Nat × Handler) × V) :
    (applyEventS g e).get? e.1.1 = (g.get? e.1.1).map (fireHandler e.1.2 e.2) := by
  unfold applyEventS
  exact listModify_get_self _ _ _

theorem applyEventS_get_other (g : List (SchedNode V)) (e : (Nat × Handler) × V)
    (k : Nat) (hk : e.1.1 ≠ k) : (applyEventS g e).get? k = g.get? k := by
  unfold applyEventS
  exact listModify_get_other _ _ _ _ hk

theorem applyEventS_statics (g : List (SchedNode V)) (e : (Nat × Handler) × V)
    (k : Nat) : staticsAt (applyEventS g e) k = staticsAt g k := by
  by_cases hk : e.1.1 = k
  · subst hk
    cases hg : g.get? e.1.1 with
    | none =>
      have h2 : (applyEventS g e).get? e.1.1 = none := by
        rw [applyEventS_get_self, hg]
        rfl
      unfold staticsAt callbacksAt outputsAt slotsLen isFoldAt Dof eagerAt
      rw [h2, hg]
    | some sn =>
      have h2 : (applyEventS g e).get? e.1.1 =
          some (fireHandler e.1.2 e.2 sn) := by
        rw [applyEventS_get_self, hg]
        rfl
      obtain ⟨core, cbs, outs, idv⟩ := sn
      unfold staticsAt callbacksAt outputsAt slotsLen isFoldAt Dof eagerAt
      rw [h2, hg]
      cases hh : e.1.2 with
      | slot j =>
        cases core with
        | plain slots res f => simp [fireHandler, List.length_set]
        | fold fn => simp [fireHandler]
      | foldDeliver =>
        cases core with
        | plain slots res f => simp [fireHandler]
        | fold fn =>
          simp [fireHandler, (FoldNode.deliver_fields fn e.2).1,
            (FoldNode.deliver_fields fn e.2).2.2.1]
  · have h2 := applyEventS_get_other g e k hk
    unfold staticsAt callbacksAt outputsAt slotsLen isFoldAt Dof eagerAt
    rw [h2]

theorem applyEventS_slotSet_mono (g : List (SchedNode V)) (e : (Nat × Handler) × V)
    (c j : Nat) (h : slotSet g c j = true) :
    slotSet (applyEventS g e) c j = true := by
  by_cases hk : e.1.1 = c
  · subst hk
    cases hg : g.get? e.1.1 with
    | none =>
      rw [slotSet_of_none j hg] at h
      exact Bool.noConfusion h
    | some sn =>
      obtain ⟨core, cbs, outs, idv⟩ := sn
      have h2 : (applyEventS g e).get? e.1.1 =
          some (fireHandler e.1.2 e.2 ⟨core, cbs, outs, idv⟩) := by
        rw [applyEventS_get_self, hg]
        rfl
      cases core with
      | fold fn =>
        rw [slotSet_of_get_fold j hg] at h
        exact Bool.noConfusion h
      | plain slots res f =>
        rw [slotSet_of_get_plain j hg] at h
        cases hh : e.1.2 with
        | foldDeliver =>
          have h3 : fireHandler e.1.2 e.2
              (⟨NodeCore.plain slots res f, cbs, outs, idv⟩ : SchedNode V) =
              ⟨NodeCore.plain slots res f, cbs, outs, idv⟩ := by
            rw [hh]
            rfl
          rw [h3] at h2
          rw [slotSet_of_get_plain j h2]
          exact h
        | slot j0 =>
          have h3 : fireHandler e.1.2 e.2
              (⟨NodeCore.plain slots res f, cbs, outs, idv⟩ : SchedNode V) =
              ⟨NodeCore.plain (slots.set j0 (some e.2)) res f, cbs, outs, idv⟩ := by
            rw [hh]
            rfl
          rw [h3] at h2
          rw [slotSet_of_get_plain j h2]
          by_cases hj : j0 = j
          · subst hj
            by_cases hlt : j0 < slots.length
            · rw [listGetD_eq_get?, listSet_get_self _ _ _ hlt]
              rfl
            · push_neg at hlt
              rw [listGetD_eq_get?, List.set_eq_of_length_le hlt, ← listGetD_eq_get?]
              exact h
          · rw [listGetD_eq_get?, listSet_get_other _ _ _ _ hj, ← listGetD_eq_get?]
            exact h
  · unfold slotSet
    rw [applyEventS_get_other g e c hk]
    unfold slotSet at h
    exact h

theorem applyEventS_slotSet_self (g : List (SchedNode V)) (e : (Nat × Handler) × V)
    (j : Nat) (hh : e.1.2 = Handler.slot j) (hpl : isFoldAt g e.1.1 = false)
    (hcl : e.1.1 < g.length) (hjl : j < slotsLen g e.1.1) :
    slotSet (applyEventS g e) e.1.1 j = true := by
  obtain ⟨sn, hg⟩ := get?_some_of_lt g e.1.1 hcl
  obtain ⟨core, cbs, outs, idv⟩ := sn
  cases core with
  | fold fn =>
    rw [isFoldAt_of_get_fold hg] at hpl
    exact Bool.noConfusion hpl
  | plain slots res f =>
    rw [slotsLen_of_get_plain hg] at hjl
    have h2 : (applyEventS g e).get? e.1.1 =
        some (⟨NodeCore.plain (slots.set j (some e.2)) res f, cbs, outs, idv⟩ : SchedNode V) := by
      rw [applyEventS_get_self, hg, hh]
      rfl
    rw [slotSet_of_get_plain j h2, listGetD_eq_get?, listSet_get_self _ _ _ hjl]
    rfl

theorem applyEventS_Rof (g : List (SchedNode V)) (e : (Nat × Handler) × V) (c : Nat)
    (hty : e.1.2 = Handler.foldDeliver → isFoldAt g e.1.1 = true) :
    Rof (applyEventS g e) c =
      Rof g c + (if e.1 = (c, Handler.foldDeliver) then 1 else 0) := by
  cases hh : e.1.2 with
  | slot j =>
    have hne : e.1 ≠ (c, Handler.foldDeliver) := by
      intro hcon
      rw [hcon] at hh
      exact Handler.noConfusion hh
    rw [if_neg hne, Nat.add_zero]
    by_cases hk : e.1.1 = c
    · subst hk
      cases hg : g.get? e.1.1 with
      | none =>
        have h2 : (applyEventS g e).get? e.1.1 = none := by
          rw [applyEventS_get_self, hg]
          rfl
        rw [Rof_of_none h2, Rof_of_none hg]
      | some sn =>
        obtain ⟨core, cbs, outs, idv⟩ := sn
        have h2 : (applyEventS g e).get? e.1.1 =
            some (fireHandler e.1.2 e.2 ⟨core, cbs, outs, idv⟩) := by
          rw [applyEventS_get_self, hg]
          rfl
        cases core with
        | plain slots res f =>
          have h3 : fireHandler e.1.2 e.2
              (⟨NodeCore.plain slots res f, cbs, outs, idv⟩ : SchedNode V) =
              ⟨NodeCore.plain (slots.set j (some e.2)) res f, cbs, outs, idv⟩ := by
            rw [hh]
            rfl
          rw [h3] at h2
          rw [Rof_of_get_plain h2, Rof_of_get_plain hg]
        | fold fn =>
          have h3 : fireHandler e.1.2 e.2
              (⟨NodeCore.fold fn, cbs, outs, idv⟩ : SchedNode V) =
              ⟨NodeCore.fold fn, cbs, outs, idv⟩ := by
            rw [hh]
            rfl
          rw [h3] at h2
          rw [Rof_of_get_fold h2, Rof_of_get_fold hg]
    · unfold Rof
      rw [applyEventS_get_other g e c hk]
  | foldDeliver =>
    have hf := hty hh
    cases hg : g.get? e.1.1 with
    | none =>
      rw [isFoldAt_of_none hg] at hf
      exact Bool.noConfusion hf
    | some sn =>
      obtain ⟨core, cbs, outs, idv⟩ := sn
      cases core with
      | plain slots res f =>
        rw [isFoldAt_of_get_plain hg] at hf
        exact Bool.noConfusion hf
      | fold fn =>
        have h2 : (applyEventS g e).get? e.1.1 =
            some (⟨NodeCore.fold (fn.deliver e.2), cbs, outs, idv⟩ : SchedNode V) := by
          rw [applyEventS_get_self, hg, hh]
          rfl
        by_cases hk : e.1.1 = c
        · subst hk
          have hcond : e.1 = (e.1.1, Handler.foldDeliver) := by
            have hpe : e.1 = (e.1.1, e.1.2) := rfl
            rw [hh] at hpe
            exact hpe
          rw [if_pos hcond, Rof_of_get_fold h2, Rof_of_get_fold hg,
            (FoldNode.deliver_fields fn e.2).2.1]
        · have hne : e.1 ≠ (c, Handler.foldDeliver) := by
            intro hcon
            exact hk (congrArg Prod.fst hcon)
          rw [if_neg hne, Nat.add_zero]
          unfold Rof
          rw [applyEventS_get_other g e c hk]

theorem applyEventS_engaged (g : List (SchedNode V)) (e : (Nat × Handler) × V)
    (c : Nat) : engagedAt (applyEventS g e) c = engagedAt g c := by
  by_cases hk : e.1.1 = c
  · subst hk
    cases hg : g.get? e.1.1 with
    | none =>
      have h2 : (applyEventS g e).get? e.1.1 = none := by
        rw [applyEventS_get_self, hg]
        rfl
      rw [engagedAt_of_none h2, engagedAt_of_none hg]
    | some sn =>
      obtain ⟨core, cbs, outs, idv⟩ := sn
      have h2 : (applyEventS g e).get? e.1.1 =
          some (fireHandler e.1.2 e.2 ⟨core, cbs, outs, idv⟩) := by
        rw [applyEventS_get_self, hg]
        rfl
      cases hh : e.1.2 with
      | slot j =>
        cases core with
        | plain slots res f =>
          have h3 : fireHandler e.1.2 e.2
              (⟨NodeCore.plain slots res f, cbs, outs, idv⟩ : SchedNode V) =
              ⟨NodeCore.plain (slots.set j (some e.2)) res f, cbs, outs, idv⟩ := by
            rw [hh]
            rfl
          rw [h3] at h2
          rw [engagedAt_of_get_plain h2, engagedAt_of_get_plain hg]
        | fold fn =>
          have h3 : fireHandler e.1.2 e.2
              (⟨NodeCore.fold fn, cbs, outs, idv⟩ : SchedNode V) =
              ⟨NodeCore.fold fn, cbs, outs, idv⟩ := by
            rw [hh]
            rfl
          rw [h3] at h2
          rw [engagedAt_of_get_fold h2, engagedAt_of_get_fold hg]
      | foldDeliver =>
        cases core with
        | plain slots res f =>
          have h3 : fireHandler e.1.2 e.2
              (⟨NodeCore.plain slots res f, cbs, outs, idv⟩ : SchedNode V) =
              ⟨NodeCore.plain slots res f, cbs, outs, idv⟩ := by
            rw [hh]
            rfl
          rw [h3] at h2
          rw [engagedAt_of_get_plain h2, engagedAt_of_get_plain hg]
        | fold fn =>
          have h3 : fireHandler e.1.2 e.2
              (⟨NodeCore.fold fn, cbs, outs, idv⟩ : SchedNode V) =
              ⟨NodeCore.fold (fn.deliver e.2), cbs, outs, idv⟩ := by
            rw [hh]
            rfl
          rw [h3] at h2
          rw [engagedAt_of_get_fold h2, engagedAt_of_get_fold hg,
            (FoldNode.deliver_fields fn e.2).2.2.2]
  · unfold engagedAt
    rw [applyEventS_get_other g e c hk]

theorem deliverS_length (events : List ((Nat × Handler) × V)) (g : List (SchedNode V)) :
    (events.foldl applyEventS g).length = g.length := by
  induction events generalizing g with
  | nil => rfl
  | cons e es ih => rw [List.foldl_cons, ih, applyEventS_length]

theorem deliverS_statics (events : List ((Nat × Handler) × V)) (g : List (SchedNode V))
    (k : Nat) : staticsAt (events.foldl applyEventS g) k = staticsAt g k := by
  induction events generalizing g with
  | nil => rfl
  | cons e es ih =>
    rw [List.foldl_cons]
    exact (ih (applyEventS g e)).trans (applyEventS_statics g e k)

theorem deliverS_slotSet_mono (events : List ((Nat × Handler) × V))
    (g : List (SchedNode V)) (c j : Nat) (h : slotSet g c j = true) :
    slotSet (events.foldl applyEventS g) c j = true := by
  induction events generalizing g with
  | nil => exact h
  | cons e es ih =>
    rw [List.foldl_cons]
    exact ih (applyEventS g e) (applyEventS_slotSet_mono g e c j h)

theorem deliverS_engaged (events : List ((Nat × Handler) × V))
    (g : List (SchedNode V)) (c : Nat) :
    engagedAt (events.foldl applyEventS g) c = engagedAt g c := by
  induction events generalizing g with
  | nil => rfl
  | cons e es ih =>
    rw [List.foldl_cons]
    exact (ih (applyEventS g e)).trans (applyEventS_engaged g e c)

theorem deliverS_slotSet_self (events : List ((Nat × Handler) × V))
    (g : List (SchedNode V)) (c j : Nat) (v : V)
    (hmem : ((c, Handler.slot j), v) ∈ events)
    (hcl : c < g.length) (hpl : isFoldAt g c = false) (hjl : j < slotsLen g c) :
    slotSet (events.foldl applyEventS g) c j = true := by
  induction events generalizing g with
  | nil => simp at hmem
  | cons e es ih =>
    rw [List.foldl_cons]
    rcases List.mem_cons.mp hmem with he | he
    · have hself : slotSet (applyEventS g e) c j = true := by
        rw [← he]
        exact applyEventS_slotSet_self g ((c, Handler.slot j), v) j rfl hpl hcl hjl
      exact deliverS_slotSet_mono es (applyEventS g e) c j hself
    · refine ih (applyEventS g e) he ?_ ?_ ?_
      · rw [applyEventS_length]
        exact hcl
      · rw [statics_isf (applyEventS_statics g e c)]
        exact hpl
      · rw [statics_slen (applyEventS_statics g e c)]
        exact hjl

theorem deliverS_Rof (events : List ((Nat × Handler) × V)) (g : List (SchedNode V))
    (c : Nat)
    (hty : ∀ e ∈ events, e.1.2 = Handler.foldDeliver → isFoldAt g e.1.1 = true) :
    Rof (events.foldl applyEventS g) c =
      Rof g c + events.countP (fun e => e.1 == (c, Handler.foldDeliver)) := by
  induction events generalizing g with
  | nil => simp
  | cons e es ih =>
    rw [List.foldl_cons, List.countP_cons]
    have h1 := applyEventS_Rof g e c (hty e (List.mem_cons_self e es))
    have h2 := ih (applyEventS g e) (by
      intro e2 he2 hfd
      rw [statics_isf (applyEventS_statics g e e2.1.1)]
      exact hty e2 (List.mem_cons_of_mem e he2) hfd)
    rw [h2, h1]
    by_cases hc : e.1 = (c, Handler.foldDeliver)
    · rw [if_pos hc, if_pos (beq_iff_eq.mpr hc)]
      omega
    · rw [if_neg hc, if_neg (fun hb => hc (beq_iff_eq.mp hb))]
      omega

theorem countP_map_cnt (cbs : List (Nat × Handler)) (r : V) (c : Nat) :
    (cbs.map (fun cb => ((cb, r) : (Nat × Handler) × V))).countP
        (fun e => e.1 == (c, Handler.foldDeliver)) =
      cbs.count (c, Handler.foldDeliver) := by
  induction cbs with
  | nil => rfl
  | cons cb cbs ih =>
    rw [List.map_cons, List.countP_cons, List.count_cons, ih]

/-! ### Scheduler lemmas: one in-graph run -/

theorem runNodeAtS_of_get (g : List (SchedNode V)) (i : Nat) (sn : SchedNode V)
    (h1 : g.get? i = some sn) :
    runNodeAtS g i = match sn.runS with
      | Except.error e => (some e, g)
      | Except.ok (sn2, events) =>
          (none, events.foldl applyEventS (listModify (fun _ => sn2) i g)) := by
  unfold runNodeAtS
  rw [h1]

theorem replace_plain_spec (g gmid : List (SchedNode V)) (i : Nat)
    (slots : List (Option V)) (res res2 : Option V) (f f2 : List V → V)
    (cbs : List (Nat × Handler)) (outs : List Nat) (idv : Nat)
    (hg : g.get? i = some ⟨NodeCore.plain slots res f, cbs, outs, idv⟩)
    (hmid : gmid = listModify
      (fun _ => (⟨NodeCore.plain slots res2 f2, cbs, outs, idv⟩ : SchedNode V)) i g) :
    gmid.length = g.length ∧
    (∀ k, staticsAt gmid k = staticsAt g k) ∧
    (∀ c j, slotSet gmid c j = slotSet g c j) ∧
    (∀ c, Rof gmid c = Rof g c) ∧
    (∀ c, engagedAt gmid c = engagedAt g c) := by
  subst hmid
  have hget : ∀ k, (listModify
      (fun _ => (⟨NodeCore.plain slots res2 f2, cbs, outs, idv⟩ : SchedNode V)) i g).get? k =
      if i = k then some (⟨NodeCore.plain slots res2 f2, cbs, outs, idv⟩ : SchedNode V)
      else g.get? k := by
    intro k
    by_cases hk : i = k
    · subst hk
      rw [if_pos rfl, listModify_get_self, hg]
      rfl
    · rw [if_neg hk]
      exact listModify_get_other _ _ _ _ hk
  refine ⟨listModify_length _ _ _, ?_, ?_, ?_, ?_⟩
  · intro k
    by_cases hk : i = k
    · subst hk
      have h2 := hget i
      rw [if_pos rfl] at h2
      unfold staticsAt callbacksAt outputsAt slotsLen isFoldAt Dof eagerAt
      rw [h2, hg]
    · have h2 := hget k
      rw [if_neg hk] at h2
      unfold staticsAt callbacksAt outputsAt slotsLen isFoldAt Dof eagerAt
      rw [h2]
  · intro c j
    by_cases hk : i = c
    · subst hk
      have h2 := hget i
      rw [if_pos rfl] at h2
      rw [slotSet_of_get_plain j h2, slotSet_of_get_plain j hg]
    · have h2 := hget c
      rw [if_neg hk] at h2
      unfold slotSet
      rw [h2]
  · intro c
    by_cases hk : i = c
    · subst hk
      have h2 := hget i
      rw [if_pos rfl] at h2
      rw [Rof_of_get_plain h2, Rof_of_get_plain hg]
    · have h2 := hget c
      rw [if_neg hk] at h2
      unfold Rof
      rw [h2]
  · intro c
    by_cases hk : i = c
    · subst hk
      have h2 := hget i
      rw [if_pos rfl] at h2
      rw [engagedAt_of_get_plain h2, engagedAt_of_get_plain hg]
    · have h2 := hget c
      rw [if_neg hk] at h2
      unfold engagedAt
      rw [h2]

theorem replace_fold_spec (g gmid : List (SchedNode V)) (i : Nat)
    (fn fn2 : FoldNode V V)
    (cbs : List (Nat × Handler)) (outs : List Nat) (idv : Nat)
    (hg : g.get? i = some ⟨NodeCore.fold fn, cbs, outs, idv⟩)
    (hmid : gmid = listModify
      (fun _ => (⟨NodeCore.fold fn2, cbs, outs, idv⟩ : SchedNode V)) i g)
    (hD : fn2.inputsDeclaredCount = fn.inputsDeclaredCount)
    (hR : fn2.inputsReadyCount = fn.inputsReadyCount)
    (hE : fn2.computeInInputNode = fn.computeInInputNode)
    (hCV : fn2.currentValue.isSome = fn.currentValue.isSome) :
    gmid.length = g.length ∧
    (∀ k, staticsAt gmid k = staticsAt g k) ∧
    (∀ c j, slotSet gmid c j = slotSet g c j) ∧
    (∀ c, Rof gmid c = Rof g c) ∧
    (∀ c, engagedAt gmid c = engagedAt g c) := by
  subst hmid
  have hget : ∀ k, (listModify
      (fun _ => (⟨NodeCore.fold fn2, cbs, outs, idv⟩ : SchedNode V)) i g).get? k =
      if i = k then some (⟨NodeCore.fold fn2, cbs, outs, idv⟩ : SchedNode V)
      else g.get? k := by
    intro k
    by_cases hk : i = k
    · subst hk
      rw [if_pos rfl, listModify_get_self, hg]
      rfl
    · rw [if_neg hk]
      exact listModify_get_other _ _ _ _ hk
  refine ⟨listModify_length _ _ _, ?_, ?_, ?_, ?_⟩
  · intro k
    by_cases hk : i = k
    · subst hk
      have h2 := hget i
      rw [if_pos rfl] at h2
      unfold staticsAt callbacksAt outputsAt slotsLen isFoldAt Dof eagerAt
      rw [h2, hg]
      simp [hD, hE]
    · have h2 := hget k
      rw [if_neg hk] at h2
      unfold staticsAt callbacksAt outputsAt slotsLen isFoldAt Dof eagerAt
      rw [h2]
  · intro c j
    by_cases hk : i = c
    · subst hk
      have h2 := hget i
      rw [if_pos rfl] at h2
      rw [slotSet_of_get_fold j h2, slotSet_of_get_fold j hg]
    · have h2 := hget c
      rw [if_neg hk] at h2
      unfold slotSet
      rw [h2]
  · intro c
    by_cases hk : i = c
    · subst hk
      have h2 := hget i
      rw [if_pos rfl] at h2
      rw [Rof_of_get_fold h2, Rof_of_get_fold hg, hR]
    · have h2 := hget c
      rw [if_neg hk] at h2
      unfold Rof
      rw [h2]
  · intro c
    by_cases hk : i = c
    · subst hk
      have h2 := hget i
      rw [if_pos rfl] at h2
      rw [engagedAt_of_get_fold h2, engagedAt_of_get_fold hg, hCV]
    · have h2 := hget c
      rw [if_neg hk] at h2
      unfold engagedAt
      rw [h2]

theorem runTail_spec (g gmid : List (SchedNode V))
    (cbs : List (Nat × Handler)) (r : V)
    (hmlen : gmid.length = g.length)
    (hmstat : ∀ k, staticsAt gmid k = staticsAt g k)
    (hmslot : ∀ c j, slotSet gmid c j = slotSet g c j)
    (hmRof : ∀ c, Rof gmid c = Rof g c)
    (hmeng : ∀ c, engagedAt gmid c = engagedAt g c)
    (hcb : ∀ e ∈ cbs, e.1 < g.length ∧ handlerTyped g e = true) :
    ((cbs.map (fun cb => ((cb, r) : (Nat × Handler) × V))).foldl applyEventS gmid).length
        = g.length ∧
    (∀ k, staticsAt
        ((cbs.map (fun cb => ((cb, r) : (Nat × Handler) × V))).foldl applyEventS gmid) k
        = staticsAt g k) ∧
    (∀ c j, slotSet g c j = true → slotSet
        ((cbs.map (fun cb => ((cb, r) : (Nat × Handler) × V))).foldl applyEventS gmid) c j
        = true) ∧
    (∀ e ∈ cbs, ∀ j, e.2 = Handler.slot j → slotSet
        ((cbs.map (fun cb => ((cb, r) : (Nat × Handler) × V))).foldl applyEventS gmid) e.1 j
        = true) ∧
    (∀ c, Rof
        ((cbs.map (fun cb => ((cb, r) : (Nat × Handler) × V))).foldl applyEventS gmid) c
        = Rof g c + cbs.count (c, Handler.foldDeliver)) ∧
    (∀ c, engagedAt
        ((cbs.map (fun cb => ((cb, r) : (Nat × Handler) × V))).foldl applyEventS gmid) c
        = engagedAt g c) := by
  set events : List ((Nat × Handler) × V) := cbs.map (fun cb => (cb, r)) with hev
  have hty : ∀ e ∈ events, e.1.2 = Handler.foldDeliver → isFoldAt gmid e.1.1 = true := by
    intro e2 he2 hfd
    rw [hev] at he2
    obtain ⟨cb, hcbmem, hcbe⟩ := List.mem_map.mp he2
    obtain ⟨hb1, hb2⟩ := hcb cb hcbmem
    have he21 : e2.1 = cb := by rw [← hcbe]
    rw [he21] at hfd
    rw [he21, statics_isf (hmstat cb.1)]
    exact handlerTyped_fold hb2 hfd
  refine ⟨?_, ?_, ?_, ?_, ?_, ?_⟩
  · rw [deliverS_length, hmlen]
  · intro k
    exact (deliverS_statics events gmid k).trans (hmstat k)
  · intro c j h
    refine deliverS_slotSet_mono events gmid c j ?_
    rw [hmslot]
    exact h
  · intro e he j hj
    obtain ⟨hb1, hb2⟩ := hcb e he
    have hb2a : isFoldAt g e.1 = false ∧ j < slotsLen g e.1 := handlerTyped_slot hb2 hj
    have hmemev : ((e.1, Handler.slot j), r) ∈ events := by
      rw [hev]
      refine List.mem_map.mpr ⟨e, he, ?_⟩
      rw [← hj]
    refine deliverS_slotSet_self events gmid e.1 j r hmemev ?_ ?_ ?_
    · rw [hmlen]
      exact hb1
    · rw [statics_isf (hmstat e.1)]
      exact hb2a.1
    · rw [statics_slen (hmstat e.1)]
      exact hb2a.2
  · intro c
    rw [deliverS_Rof events gmid c hty, hmRof c]
    congr 1
    rw [hev]
    exact countP_map_cnt cbs r c
  · intro c
    exact (deliverS_engaged events gmid c).trans (hmeng c)

/-- Specification of a successful in-graph run of a ready node (engaged when
it is an eager fold, with well-typed callbacks): the static per-node data is
preserved, input slots only gain values, every slot-writing callback of the
node gets its target slot set, every ready-inputs counter grows by exactly
the number of deliveries the node makes into that fold, and engagement of
accumulator cells is preserved. -/
theorem runNodeAtS_ok_spec (g : List (SchedNode V)) (i : Nat)
    (hlt : i < g.length) (hready : isReadyAt g i = true)
    (heng : eagerAt g i = true → engagedAt g i = true)
    (hcb : ∀ e ∈ callbacksAt g i, e.1 < g.length ∧ handlerTyped g e = true) :
    ∃ g2, runNodeAtS g i = (none, g2) ∧
      g2.length = g.length ∧
      (∀ k, staticsAt g2 k = staticsAt g k) ∧
      (∀ c j, slotSet g c j = true → slotSet g2 c j = true) ∧
      (∀ e ∈ callbacksAt g i, ∀ j, e.2 = Handler.slot j → slotSet g2 e.1 j = true) ∧
      (∀ c, Rof g2 c = Rof g c + cntFold g i c) ∧
      (∀ c, engagedAt g2 c = engagedAt g c) := by
  obtain ⟨sn, hg⟩ := get?_some_of_lt g i hlt
  obtain ⟨core, cbs, outs, idv⟩ := sn
  have hcbi : callbacksAt g i = cbs := callbacksAt_of_get hg
  rw [hcbi] at hcb
  have hcnt : ∀ c, cntFold g i c = cbs.count (c, Handler.foldDeliver) := by
    intro c
    unfold cntFold
    rw [hcbi]
  cases core with
  | plain slots res f =>
    have hb : ((slots.map Option.isSome).foldl (fun a b => a && b) true) = true := by
      rw [← isReadyAt_of_get_plain hg]
      exact hready
    have hrs : SchedNode.runS
        (⟨NodeCore.plain slots res f, cbs, outs, idv⟩ : SchedNode V) =
        Except.ok (⟨NodeCore.plain slots (some (f slots.reduceOption)) f, cbs, outs, idv⟩,
          cbs.map (fun cb => (cb, f slots.reduceOption))) := by
      simp [SchedNode.runS, hb]
    have hrn : runNodeAtS g i = (none,
        (cbs.map (fun cb => ((cb, f slots.reduceOption) : (Nat × Handler) × V))).foldl
          applyEventS
          (listModify (fun _ =>
            (⟨NodeCore.plain slots (some (f slots.reduceOption)) f, cbs, outs, idv⟩ :
              SchedNode V)) i g)) := by
      rw [runNodeAtS_of_get g i _ hg, hrs]
    obtain ⟨hmlen, hmstat, hmslot, hmRof, hmeng⟩ :=
      replace_plain_spec g _ i slots res (some (f slots.reduceOption)) f f cbs outs idv hg rfl
    obtain ⟨ht1, ht2, ht3, ht4, ht5, ht6⟩ :=
      runTail_spec g _ cbs (f slots.reduceOption) hmlen hmstat hmslot hmRof hmeng hcb
    refine ⟨_, hrn, ht1, ht2, ht3, ?_, ?_, ht6⟩
    · intro e he j hj
      rw [hcbi] at he
      exact ht4 e he j hj
    · intro c
      rw [ht5 c, hcnt c]
  | fold fn =>
    have hrd : fn.isReady = true := by
      rw [← isReadyAt_of_get_fold hg]
      exact hready
    cases hci : fn.computeInInputNode with
    | true =>
      have hengv : fn.currentValue.isSome = true := by
        have h1 : eagerAt g i = true := by
          rw [eagerAt_of_get_fold hg]
          exact hci
        have h2 := heng h1
        rw [engagedAt_of_get_fold hg] at h2
        exact h2
      obtain ⟨r, hr⟩ := Option.isSome_iff_exists.mp hengv
      have hfr : fn.run = Except.ok { fn with result := some r } := by
        simp [FoldNode.run, hci, hr]
      have hrs : SchedNode.runS
          (⟨NodeCore.fold fn, cbs, outs, idv⟩ : SchedNode V) =
          Except.ok (⟨NodeCore.fold { fn with result := some r }, cbs, outs, idv⟩,
            cbs.map (fun cb => (cb, r))) := by
        simp [SchedNode.runS, hfr]
      have hrn : runNodeAtS g i = (none,
          (cbs.map (fun cb => ((cb, r) : (Nat × Handler) × V))).foldl applyEventS
            (listModify (fun _ =>
              (⟨NodeCore.fold { fn with result := some r }, cbs, outs, idv⟩ :
                SchedNode V)) i g)) := by
        rw [runNodeAtS_of_get g i _ hg, hrs]
      obtain ⟨hmlen, hmstat, hmslot, hmRof, hmeng⟩ :=
        replace_fold_spec g _ i fn { fn with result := some r } cbs outs idv hg rfl
          rfl rfl rfl rfl
      obtain ⟨ht1, ht2, ht3, ht4, ht5, ht6⟩ :=
        runTail_spec g _ cbs r hmlen hmstat hmslot hmRof hmeng hcb
      refine ⟨_, hrn, ht1, ht2, ht3, ?_, ?_, ht6⟩
      · intro e he j hj
        rw [hcbi] at he
        exact ht4 e he j hj
      · intro c
        rw [ht5 c, hcnt c]
    | false =>
      have hfr : fn.run = Except.ok { fn with
          result := some (fn.buffer.foldl fn.foldFunction fn.init) } := by
        simp [FoldNode.run, hci, hrd]
      have hrs : SchedNode.runS
          (⟨NodeCore.fold fn, cbs, outs, idv⟩ : SchedNode V) =
          Except.ok (⟨NodeCore.fold { fn with
              result := some (fn.buffer.foldl fn.foldFunction fn.init) }, cbs, outs, idv⟩,
            cbs.map (fun cb => (cb, fn.buffer.foldl fn.foldFunction fn.init))) := by
        simp [SchedNode.runS, hfr]
      have hrn : runNodeAtS g i = (none,
          (cbs.map (fun cb =>
            ((cb, fn.buffer.foldl fn.foldFunction fn.init) : (Nat × Handler) × V))).foldl
            applyEventS
            (listModify (fun _ =>
              (⟨NodeCore.fold { fn with
                  result := some (fn.buffer.foldl fn.foldFunction fn.init) },
                cbs, outs, idv⟩ : SchedNode V)) i g)) := by
        rw [runNodeAtS_of_get g i _ hg, hrs]
      obtain ⟨hmlen, hmstat, hmslot, hmRof, hmeng⟩ :=
        replace_fold_spec g _ i fn
          { fn with result := some (fn.buffer.foldl fn.foldFunction fn.init) }
          cbs outs idv hg rfl rfl rfl rfl rfl
      obtain ⟨ht1, ht2, ht3, ht4, ht5, ht6⟩ :=
        runTail_spec g _ cbs (fn.buffer.foldl fn.foldFunction fn.init)
          hmlen hmstat hmslot hmRof hmeng hcb
      refine ⟨_, hrn, ht1, ht2, ht3, ?_, ?_, ht6⟩
      · intro e he j hj
        rw [hcbi] at he
        exact ht4 e he j hj
      · intro c
        rw [ht5 c, hcnt c]

/-! ### Scheduler lemmas: the child scan of onComplete -/

theorem scheduleChild_fire (s : RunState V) (c : Nat)
    (h1 : isReadyAt s.nodes c = true) (h2 : s.isScheduled.getD c false = false) :
    scheduleChild s c = { s with
      pending := s.pending ++ [c]
      isScheduled := s.isScheduled.set c true } := by
  unfold scheduleChild
  rw [h1, h2]
  rfl

theorem scheduleChild_skip (s : RunState V) (c : Nat)
    (h : isReadyAt s.nodes c = false ∨ s.isScheduled.getD c false = true) :
    scheduleChild s c = s := by
  unfold scheduleChild
  rcases h with h | h
  · rw [h]
    rfl
  · rw [h]
    simp

/-- Full behaviour of the successor scan: state components other than the
worklist and the flags are untouched; flags only grow; the worklist gains
exactly the scanned children that were ready and unscheduled, each marked
scheduled; every ready scanned child ends up scheduled; and the sum of
worklist length and unscheduled count is preserved. -/
theorem scan_spec (cs : List Nat) :
    ∀ s : RunState V,
    (∀ c, isReadyAt s.nodes c = true → c < s.isScheduled.length) →
    (cs.foldl scheduleChild s).nodes = s.nodes ∧
    (cs.foldl scheduleChild s).runs = s.runs ∧
    (cs.foldl scheduleChild s).completedCount = s.completedCount ∧
    (cs.foldl scheduleChild s).isScheduled.length = s.isScheduled.length ∧
    (∀ c, s.isScheduled.getD c false = true →
      (cs.foldl scheduleChild s).isScheduled.getD c false = true) ∧
    (∃ new, (cs.foldl scheduleChild s).pending = s.pending ++ new ∧ new.Nodup ∧
      (∀ c ∈ new, c ∈ cs ∧ s.isScheduled.getD c false = false ∧
        (cs.foldl scheduleChild s).isScheduled.getD c false = true ∧
        isReadyAt s.nodes c = true) ∧
      (∀ c, (cs.foldl scheduleChild s).isScheduled.getD c false = true →
        s.isScheduled.getD c false = true ∨ c ∈ new)) ∧
    (∀ c ∈ cs, isReadyAt s.nodes c = true →
      (cs.foldl scheduleChild s).isScheduled.getD c false = true) ∧
    ((cs.foldl scheduleChild s).pending.length +
      (cs.foldl scheduleChild s).isScheduled.count false =
      s.pending.length + s.isScheduled.count false) := by
  induction cs with
  | nil =>
    intro s _
    refine ⟨rfl, rfl, rfl, rfl, fun c h => h,
      ⟨[], by simp, List.nodup_nil, by simp, fun c h => Or.inl h⟩,
      by simp, rfl⟩
  | cons c0 cs' ih =>
    intro s hlen
    rw [List.foldl_cons]
    by_cases hr : isReadyAt s.nodes c0 = true
    · by_cases hf : s.isScheduled.getD c0 false = true
      · -- already scheduled: skip
        rw [scheduleChild_skip s c0 (Or.inr hf)]
        obtain ⟨hn, hru, hcc, hsl, hmono, ⟨new, hpend, hnd, hmem, hprov⟩, hcov, hpot⟩ :=
          ih s hlen
        refine ⟨hn, hru, hcc, hsl, hmono, ⟨new, hpend, hnd, ?_, hprov⟩, ?_, hpot⟩
        · intro c hc
          obtain ⟨hmc, h2, h3, h4⟩ := hmem c hc
          exact ⟨List.mem_cons_of_mem _ hmc, h2, h3, h4⟩
        · intro c hc hcr
          rcases List.mem_cons.mp hc with hc0 | hc0
          · subst hc0
            exact hmono c hf
          · exact hcov c hc0 hcr
      · -- fires
        have hff : s.isScheduled.getD c0 false = false := by
          cases hx : s.isScheduled.getD c0 false
          · rfl
          · exact absurd hx hf
        have hc0lt : c0 < s.isScheduled.length := hlen c0 hr
        rw [scheduleChild_fire s c0 hr hff]
        set s' : RunState V := { s with
          pending := s.pending ++ [c0]
          isScheduled := s.isScheduled.set c0 true } with hs'
        have hlen' : ∀ c, isReadyAt s'.nodes c = true → c < s'.isScheduled.length := by
          intro c hcr
          have h1 : c < s.isScheduled.length := hlen c hcr
          simpa [hs', List.length_set] using h1
        obtain ⟨hn, hru, hcc, hsl, hmono, ⟨new, hpend, hnd, hmem, hprov⟩, hcov, hpot⟩ :=
          ih s' hlen'
        have hflag0 : s'.isScheduled.getD c0 false = true := flagSet_self _ _ hc0lt
        have hflagother : ∀ d, c0 ≠ d →
            s'.isScheduled.getD d false = s.isScheduled.getD d false := by
          intro d hd
          exact flagSet_other _ _ _ hd
        refine ⟨hn, hru, hcc, ?_, ?_, ?_, ?_, ?_⟩
        · rw [hsl]
          simp [hs', List.length_set]
        · intro c hc
          refine hmono c ?_
          by_cases hcc0 : c0 = c
          · subst hcc0
            exact hflag0
          · rw [hflagother c hcc0]
            exact hc
        · refine ⟨c0 :: new, ?_, ?_, ?_, ?_⟩
          · rw [hpend]
            simp [hs']
          · refine List.nodup_cons.mpr ⟨?_, hnd⟩
            intro hmemc0
            have h1 := (hmem c0 hmemc0).2.1
            rw [hflag0] at h1
            exact Bool.noConfusion h1
          · intro c hc
            rcases List.mem_cons.mp hc with hc0 | hc0
            · subst hc0
              refine ⟨List.mem_cons_self _ _, hff, hmono c hflag0, hr⟩
            · obtain ⟨hmc, hmf, hmt, hmr⟩ := hmem c hc0
              have hcne : c0 ≠ c := by
                intro he
                subst he
                rw [hflag0] at hmf
                exact Bool.noConfusion hmf
              refine ⟨List.mem_cons_of_mem _ hmc, ?_, hmt, hmr⟩
              rw [← hflagother c hcne]
              exact hmf
          · intro c hc
            rcases hprov c hc with hc1 | hc1
            · by_cases hcc0 : c0 = c
              · subst hcc0
                exact Or.inr (List.mem_cons_self _ _)
              · rw [hflagother c hcc0] at hc1
                exact Or.inl hc1
            · exact Or.inr (List.mem_cons_of_mem _ hc1)
        · intro c hc hcr
          rcases List.mem_cons.mp hc with hc0 | hc0
          · subst hc0
            exact hmono c hflag0
          · exact hcov c hc0 hcr
        · rw [hpot]
          have hcount : (s.isScheduled.set c0 true).count false + 1 =
              s.isScheduled.count false := count_false_set_true _ _ hc0lt hff
          have hplen : s'.pending.length = s.pending.length + 1 := by
            simp [hs']
          have hz : s'.isScheduled.count false + 1 = s.isScheduled.count false := hcount
          omega
    · -- not ready: skip
      have hrf : isReadyAt s.nodes c0 = false := by
        cases hx : isReadyAt s.nodes c0
        · rfl
        · exact absurd hx hr
      rw [scheduleChild_skip s c0 (Or.inl hrf)]
      obtain ⟨hn, hru, hcc, hsl, hmono, ⟨new, hpend, hnd, hmem, hprov⟩, hcov, hpot⟩ :=
        ih s hlen
      refine ⟨hn, hru, hcc, hsl, hmono, ⟨new, hpend, hnd, ?_, hprov⟩, ?_, hpot⟩
      · intro c hc
        obtain ⟨hmc, h2, h3, h4⟩ := hmem c hc
        exact ⟨List.mem_cons_of_mem _ hmc, h2, h3, h4⟩
      · intro c hc hcr
        rcases List.mem_cons.mp hc with hc0 | hc0
        · subst hc0
          exact absurd hcr hr
        · exact hcov c hc0 hcr

theorem onComplete_unfold (s : RunState V) (i : Nat) :
    onComplete s i = { (outputsAt s.nodes i).foldl scheduleChild s with
      completedCount :=
        ((outputsAt s.nodes i).foldl scheduleChild s).completedCount + 1 } := rfl

theorem processJobs_zero (s : RunState V) : processJobs 0 s = s := rfl

theorem processJobs_nil (fuel : Nat) (s : RunState V) (h : s.pending = []) :
    processJobs (fuel + 1) s = s := by
  simp only [processJobs]
  rw [h]

theorem processJobs_cons (fuel : Nat) (s : RunState V) (i : Nat) (rest : List Nat)
    (h : s.pending = i :: rest) :
    processJobs (fuel + 1) s = processJobs fuel (runJob { s with pending := rest } i) := by
  simp only [processJobs]
  rw [h]

/-! ### Scheduler lemmas: sums of delivery counts -/

theorem rangeSum_eq (f : Nat → Nat) (n : Nat) :
    ((List.range n).map f).sum = (Finset.range n).sum f := by
  induction n with
  | zero => rfl
  | succ m ih =>
    rw [List.range_succ, List.map_append, List.sum_append, Finset.sum_range_succ, ih]
    simp

theorem nodupSum_eq_range (f : Nat → Nat) (l : List Nat) (n : Nat)
    (hnd : l.Nodup) (hsub : ∀ p ∈ l, p < n) (hcov : ∀ p < n, f p ≠ 0 → p ∈ l) :
    (l.map f).sum = ((List.range n).map f).sum := by
  rw [rangeSum_eq, ← List.sum_toFinset f hnd]
  refine Finset.sum_subset ?_ ?_
  · intro x hx
    rw [Finset.mem_range]
    exact hsub x (List.mem_toFinset.mp hx)
  · intro x hx hnx
    by_contra hne
    exact hnx (List.mem_toFinset.mpr (hcov x (Finset.mem_range.mp hx) hne))

theorem nodupSum_eq_range_zero (f : Nat → Nat) (l : List Nat) (n : Nat)
    (hnd : l.Nodup) (hsub : ∀ p ∈ l, p < n)
    (heq : (l.map f).sum = ((List.range n).map f).sum) :
    ∀ p < n, p ∉ l → f p = 0 := by
  intro p hp hpl
  have hsubF : l.toFinset ⊆ Finset.range n := by
    intro x hx
    rw [Finset.mem_range]
    exact hsub x (List.mem_toFinset.mp hx)
  have h1 : Finset.sum (Finset.range n \ l.toFinset) f + Finset.sum l.toFinset f =
      Finset.sum (Finset.range n) f := Finset.sum_sdiff hsubF
  rw [rangeSum_eq, ← List.sum_toFinset f hnd] at heq
  have h2 : Finset.sum (Finset.range n \ l.toFinset) f = 0 := by omega
  have hpmem : p ∈ Finset.range n \ l.toFinset := by
    rw [Finset.mem_sdiff, Finset.mem_range]
    exact ⟨hp, fun hx => hpl (List.mem_toFinset.mp hx)⟩
  exact (Finset.sum_eq_zero_iff.mp h2) p hpmem

theorem rangeSum_pos_exists (f : Nat → Nat) (n : Nat)
    (h : ((List.range n).map f).sum ≠ 0) : ∃ p, p < n ∧ f p ≠ 0 := by
  by_contra hc
  push_neg at hc
  refine h (List.sum_eq_zero ?_)
  intro x hx
  obtain ⟨p, hp, hpx⟩ := List.mem_map.mp hx
  rw [← hpx]
  exact hc p (List.mem_range.mp hp)

theorem cnt_ne_zero_mem {l : List (Nat × Handler)} {a : Nat × Handler}
    (h : l.count a ≠ 0) : a ∈ l := by
  by_contra hc
  exact h (List.count_eq_zero.mpr hc)

/-! ### Scheduler lemmas: transported callback bounds -/

theorem cbBounds_transport (G : ComputationalGraph V) (wf : WfGraph G)
    (g : List (SchedNode V)) (hlen : g.length = G.graph.length)
    (hstat : ∀ k, staticsAt g k = staticsAt G.graph k)
    (i : Nat) (hi : i < G.graph.length) :
    ∀ e ∈ callbacksAt g i, e.1 < g.length ∧ handlerTyped g e = true := by
  intro e he
  rw [statics_cbs (hstat i)] at he
  obtain ⟨h1, h2⟩ := wf.cbBounds i hi e he
  refine ⟨by rw [hlen]; exact h1, ?_⟩
  rw [handlerTyped_transport (hstat e.1)]
  exact h2

theorem runJob_of_run (s : RunState V) (i : Nat) (g2 : List (SchedNode V))
    (h : runNodeAtS s.nodes i = (none, g2)) :
    runJob s i = onComplete { s with nodes := g2, runs := s.runs ++ [i] } i := by
  unfold runJob
  rw [h]

/-! ### The scheduler invariant is preserved by every pool job -/

theorem runJob_inv (G : ComputationalGraph V) (wf : WfGraph G) (s : RunState V)
    (inv : SchedInv G s) (i : Nat) (rest : List Nat) (hp : s.pending = i :: rest) :
    SchedInv G (runJob { s with pending := rest } i) ∧
    potential (runJob { s with pending := rest } i) + 1 = potential s := by
  have himem : i ∈ s.pending := by rw [hp]; exact List.mem_cons_self i rest
  obtain ⟨hin, hifl, hird⟩ := inv.pendMem i himem
  have hlt : i < s.nodes.length := by rw [inv.nodesLen]; exact hin
  have hcbS : ∀ k, callbacksAt s.nodes k = callbacksAt G.graph k :=
    fun k => statics_cbs (inv.statics k)
  have hslS : ∀ k, slotsLen s.nodes k = slotsLen G.graph k :=
    fun k => statics_slen (inv.statics k)
  have hisfS : ∀ k, isFoldAt s.nodes k = isFoldAt G.graph k :=
    fun k => statics_isf (inv.statics k)
  have hdclS : ∀ k, Dof s.nodes k = Dof G.graph k :=
    fun k => statics_dcl (inv.statics k)
  have hegrS : ∀ k, eagerAt s.nodes k = eagerAt G.graph k :=
    fun k => statics_egr (inv.statics k)
  have hcbB := cbBounds_transport G wf s.nodes inv.nodesLen inv.statics i hin
  have hengi : eagerAt s.nodes i = true → engagedAt s.nodes i = true := by
    intro he
    refine inv.engaged i ?_
    rw [← hegrS i]
    exact he
  obtain ⟨g2, hrn, hg2len, hg2static, hg2mono, hg2deliv, hg2Rof, hg2eng⟩ :=
    runNodeAtS_ok_spec s.nodes i hlt hird hengi hcbB
  have hrj : runJob { s with pending := rest } i =
      onComplete { s with pending := rest, nodes := g2, runs := s.runs ++ [i] } i :=
    runJob_of_run { s with pending := rest } i g2 hrn
  set sMid : RunState V :=
    { s with pending := rest, nodes := g2, runs := s.runs ++ [i] } with hsMid
  have hg2n : g2.length = G.graph.length := by rw [hg2len, inv.nodesLen]
  have hstatG : ∀ k, staticsAt g2 k = staticsAt G.graph k :=
    fun k => (hg2static k).trans (inv.statics k)
  have houtG : ∀ k, outputsAt g2 k = outputsAt G.graph k :=
    fun k => statics_outs (hstatG k)
  have hslotsG : ∀ k, slotsLen g2 k = slotsLen G.graph k :=
    fun k => statics_slen (hstatG k)
  have hisfG : ∀ k, isFoldAt g2 k = isFoldAt G.graph k :=
    fun k => statics_isf (hstatG k)
  have hdclG : ∀ k, Dof g2 k = Dof G.graph k :=
    fun k => statics_dcl (hstatG k)
  have hinotruns : i ∉ s.runs := inv.disj i himem
  have hcnti : ∀ c, cntFold s.nodes i c = cntFold G.graph i c := by
    intro c
    unfold cntFold
    rw [hcbS i]
  have hreadypres : ∀ c, isReadyAt s.nodes c = true → isReadyAt g2 c = true := by
    intro c hc
    have hcl : c < s.nodes.length := isReadyAt_true_lt s.nodes c hc
    have hclG : c < G.graph.length := by rw [← inv.nodesLen]; exact hcl
    have hcl2 : c < g2.length := by rw [hg2n]; exact hclG
    cases hisf : isFoldAt G.graph c with
    | false =>
      rw [isReadyAt_plain_iff g2 c hcl2 (by rw [hisfG]; exact hisf)]
      intro j hj
      rw [hslotsG c, ← hslS c] at hj
      refine hg2mono c j ?_
      exact (isReadyAt_plain_iff s.nodes c hcl (by rw [hisfS]; exact hisf)).mp hc j hj
    | true =>
      have hready0 : Dof s.nodes c = Rof s.nodes c :=
        (isReadyAt_fold_iff s.nodes c (by rw [hisfS]; exact hisf)).mp hc
      have hsum : (s.runs.map (fun p => cntFold G.graph p c)).sum =
          ((List.range G.graph.length).map (fun p => cntFold G.graph p c)).sum := by
        rw [← inv.foldCount c hisf, ← hready0, hdclS c, (wf.foldDecl c hclG hisf).1]
      have hizero : cntFold G.graph i c = 0 :=
        nodupSum_eq_range_zero (fun p => cntFold G.graph p c) s.runs G.graph.length
          inv.runsNodup (fun p hpm => (inv.runsMem p hpm).1) hsum i hin hinotruns
      rw [isReadyAt_fold_iff g2 c (by rw [hisfG]; exact hisf), hg2Rof c, hcnti c,
        hizero, Nat.add_zero, hdclG c, ← hdclS c]
      exact hready0
  have hscan := scan_spec (outputsAt sMid.nodes i) sMid
    (by
      intro c hc
      have h1 : c < g2.length := isReadyAt_true_lt g2 c hc
      have h2 : c < G.graph.length := by rw [← hg2n]; exact h1
      rw [show sMid.isScheduled = s.isScheduled from rfl, inv.schedLen]
      exact h2)
  obtain ⟨hn, hru, hcc, hsl, hmono, ⟨new, hpend, hnwd, hmem, hprov⟩, hcov, hpot⟩ := hscan
  set scan : RunState V := (outputsAt sMid.nodes i).foldl scheduleChild sMid with hscandef
  have hrj2 : runJob { s with pending := rest } i =
      { scan with completedCount := scan.completedCount + 1 } := by
    rw [hrj, onComplete_unfold]
  have hint : i ∉ rest := by
    have h1 := inv.pendNodup
    rw [hp] at h1
    exact (List.nodup_cons.mp h1).1
  have hrestnd : rest.Nodup := by
    have h1 := inv.pendNodup
    rw [hp] at h1
    exact (List.nodup_cons.mp h1).2
  have hrest_sub : ∀ c ∈ rest, c ∈ s.pending := by
    intro c hc
    rw [hp]
    exact List.mem_cons_of_mem i hc
  have hflagsame : sMid.isScheduled = s.isScheduled := rfl
  have hnewflags : ∀ c ∈ new, s.isScheduled.getD c false = false := by
    intro c hc
    exact (hmem c hc).2.1
  have hruns : scan.runs = s.runs ++ [i] := hru
  have hpend2 : scan.pending = rest ++ new := hpend
  rw [hrj2]
  constructor
  · refine ⟨?_, ?_, ?_, ?_, ?_, ?_, ?_, ?_, ?_, ?_, ?_, ?_, ?_, ?_, ?_⟩
    · show scan.nodes.length = G.graph.length
      rw [hn]
      exact hg2n
    · intro k
      show staticsAt scan.nodes k = staticsAt G.graph k
      rw [hn]
      exact hstatG k
    · show scan.isScheduled.length = G.graph.length
      rw [hsl]
      exact inv.schedLen
    · show scan.pending.Nodup
      rw [hpend2]
      refine List.nodup_append.mpr ⟨hrestnd, hnwd, ?_⟩
      intro c hc hcnew
      have h1 := (inv.pendMem c (hrest_sub c hc)).2.1
      have h2 := hnewflags c hcnew
      rw [h1] at h2
      exact Bool.noConfusion h2
    · intro c hc
      show c < G.graph.length ∧ scan.isScheduled.getD c false = true ∧
        isReadyAt scan.nodes c = true
      replace hc : c ∈ scan.pending := hc
      rw [hpend2] at hc
      rcases List.mem_append.mp hc with hcr | hcn
      · obtain ⟨h1, h2, h3⟩ := inv.pendMem c (hrest_sub c hcr)
        refine ⟨h1, hmono c h2, ?_⟩
        rw [hn]
        exact hreadypres c h3
      · obtain ⟨h1, h2, h3, h4⟩ := hmem c hcn
        refine ⟨?_, h3, ?_⟩
        · have h5 := isReadyAt_true_lt sMid.nodes c h4
          rw [show sMid.nodes = g2 from rfl, hg2n] at h5
          exact h5
        · rw [hn]
          exact h4
    · show scan.runs.Nodup
      rw [hruns]
      refine List.nodup_append.mpr ⟨inv.runsNodup, List.nodup_singleton i, ?_⟩
      intro c hc hci
      have h1 : c = i := by simpa using hci
      subst h1
      exact hinotruns hc
    · intro c hc
      show c < G.graph.length ∧ scan.isScheduled.getD c false = true
      replace hc : c ∈ scan.runs := hc
      rw [hruns] at hc
      rcases List.mem_append.mp hc with hcr | hci
      · obtain ⟨h1, h2⟩ := inv.runsMem c hcr
        exact ⟨h1, hmono c h2⟩
      · have h1 : c = i := by simpa using hci
        subst h1
        exact ⟨hin, hmono c hifl⟩
    · intro c hc
      replace hc : c ∈ scan.pending := hc
      rw [hpend2] at hc
      show c ∉ scan.runs
      rw [hruns]
      intro hcruns
      rcases List.mem_append.mp hc with hcr | hcn
      · rcases List.mem_append.mp hcruns with h1 | h1
        · exact inv.disj c (hrest_sub c hcr) h1
        · have h2 : c = i := by simpa using h1
          subst h2
          exact hint hcr
      · have hflagf := hnewflags c hcn
        rcases List.mem_append.mp hcruns with h1 | h1
        · have h2 := (inv.runsMem c h1).2
          rw [hflagf] at h2
          exact Bool.noConfusion h2
        · have h2 : c = i := by simpa using h1
          subst h2
          rw [hflagf] at hifl
          exact Bool.noConfusion hifl
    · show scan.completedCount + 1 = scan.runs.length
      rw [hruns, hcc, show sMid.completedCount = s.completedCount from rfl, inv.countEq]
      simp
    · intro c hc
      replace hc : scan.isScheduled.getD c false = true := hc
      show c ∈ scan.runs ∨ c ∈ scan.pending
      rw [hruns, hpend2]
      have hc2 := hprov c hc
      rcases hc2 with h1 | h1
      · rw [hflagsame] at h1
        rcases inv.schedImp c h1 with h2 | h2
        · exact Or.inl (List.mem_append_left _ h2)
        · rw [hp] at h2
          rcases List.mem_cons.mp h2 with h3 | h3
          · subst h3
            exact Or.inl (List.mem_append_right _ (List.mem_singleton.mpr rfl))
          · exact Or.inr (List.mem_append_left _ h3)
      · exact Or.inr (List.mem_append_right _ h1)
    · intro p hpmem e he j hj
      replace hpmem : p ∈ scan.runs := hpmem
      rw [hruns] at hpmem
      show slotSet scan.nodes e.1 j = true
      rw [hn]
      rcases List.mem_append.mp hpmem with h1 | h1
      · exact hg2mono e.1 j (inv.deliveredSlots p h1 e he j hj)
      · have h2 : p = i := by simpa using h1
        subst h2
        refine hg2deliv e ?_ j hj
        rw [hcbS p]
        exact he
    · intro c hisf
      show Rof scan.nodes c = (scan.runs.map (fun p => cntFold G.graph p c)).sum
      rw [hn, hruns, hg2Rof c, hcnti c, inv.foldCount c hisf,
        List.map_append, List.sum_append]
      simp
    · intro c he
      show engagedAt scan.nodes c = true
      rw [hn, hg2eng c]
      exact inv.engaged c he
    · intro c hc hcleaf hwall
      have hwall2 : ∀ p, p < G.graph.length →
          (∃ h, (c, h) ∈ callbacksAt G.graph p) → p ∈ s.runs ++ [i] := by
        intro p h1 h2
        have hx : p ∈ scan.runs := hwall p h1 h2
        rw [hruns] at hx
        exact hx
      show scan.isScheduled.getD c false = true
      by_cases hallold : ∀ p, p < G.graph.length →
          (∃ h, (c, h) ∈ callbacksAt G.graph p) → p ∈ s.runs
      · exact hmono c (inv.readySched c hc hcleaf hallold)
      · push_neg at hallold
        obtain ⟨p, hp1, hp2, hp3⟩ := hallold
        have hpin := hwall2 p hp1 hp2
        have hpi : p = i := by
          rcases List.mem_append.mp hpin with h1 | h1
          · exact absurd h1 hp3
          · simpa using h1
        subst hpi
        obtain ⟨h0, hj0⟩ := hp2
        have hcs : c ∈ outputsAt sMid.nodes p := by
          rw [show sMid.nodes = g2 from rfl, houtG p, wf.outputsEq p hp1]
          exact List.mem_map.mpr ⟨(c, h0), hj0, rfl⟩
        have hcg2 : c < g2.length := by rw [hg2n]; exact hc
        have hcready : isReadyAt sMid.nodes c = true := by
          rw [show sMid.nodes = g2 from rfl]
          cases hisf : isFoldAt G.graph c with
          | false =>
            rw [isReadyAt_plain_iff g2 c hcg2 (by rw [hisfG]; exact hisf)]
            intro j hj
            rw [hslotsG c] at hj
            obtain ⟨pj, hpjR, hpj2⟩ := (wf.slotCovered c hc hisf hcleaf).2 j hj
            have hpj1 : pj < G.graph.length := List.mem_range.mp hpjR
            have hpjin := hwall2 pj hpj1 ⟨Handler.slot j, hpj2⟩
            rcases List.mem_append.mp hpjin with h1 | h1
            · exact hg2mono c j (inv.deliveredSlots pj h1 (c, Handler.slot j) hpj2 j rfl)
            · have h2 : pj = p := by simpa using h1
              rw [h2] at hpj2
              refine hg2deliv (c, Handler.slot j) ?_ j rfl
              rw [hcbS p]
              exact hpj2
          | true =>
            rw [isReadyAt_fold_iff g2 c (by rw [hisfG]; exact hisf), hg2Rof c,
              hcnti c, inv.foldCount c hisf, hdclG c, (wf.foldDecl c hc hisf).1]
            have happ : (s.runs.map (fun p2 => cntFold G.graph p2 c)).sum +
                cntFold G.graph p c =
                ((s.runs ++ [p]).map (fun p2 => cntFold G.graph p2 c)).sum := by
              rw [List.map_append, List.sum_append]
              simp
            rw [happ]
            refine (nodupSum_eq_range (fun p2 => cntFold G.graph p2 c) (s.runs ++ [p])
              G.graph.length ?_ ?_ ?_).symm
            · refine List.nodup_append.mpr ⟨inv.runsNodup, List.nodup_singleton p, ?_⟩
              intro x hx hxi
              have h1 : x = p := by simpa using hxi
              subst h1
              exact hinotruns hx
            · intro p2 hpm
              rcases List.mem_append.mp hpm with h1 | h1
              · exact (inv.runsMem p2 h1).1
              · have h2 : p2 = p := by simpa using h1
                subst h2
                exact hin
            · intro p2 hplt hpne
              exact hwall2 p2 hplt ⟨Handler.foldDeliver, cnt_ne_zero_mem hpne⟩
        exact hcov c hcs hcready
    · intro ℓ hℓ
      show ℓ ∈ scan.runs
      rw [hruns]
      exact List.mem_append_left _ (inv.leavesRan ℓ hℓ)
  · have hpe : potential ({ scan with completedCount := scan.completedCount + 1 } : RunState V) =
        scan.pending.length + scan.isScheduled.count false := rfl
    have hps : potential s = s.pending.length + s.isScheduled.count false := rfl
    have hplen : s.pending.length = rest.length + 1 := by
      rw [hp]
      simp
    have hy : sMid.pending.length = rest.length := rfl
    have hz : sMid.isScheduled.count false = s.isScheduled.count false := rfl
    rw [hpe, hps]
    omega

/-! ### Worklist drain -/

theorem processJobs_inv (G : ComputationalGraph V) (wf : WfGraph G) :
    ∀ (fuel : Nat) (s : RunState V), SchedInv G s → potential s < fuel →
      SchedInv G (processJobs fuel s) ∧ (processJobs fuel s).pending = [] := by
  intro fuel
  induction fuel with
  | zero =>
    intro s _ h
    exact absurd h (Nat.not_lt_zero _)
  | succ f ih =>
    intro s inv hpot
    cases hp : s.pending with
    | nil =>
      rw [processJobs_nil f s hp]
      exact ⟨inv, hp⟩
    | cons i rest =>
      rw [processJobs_cons f s i rest hp]
      obtain ⟨inv2, hpot2⟩ := runJob_inv G wf s inv i rest hp
      refine ih (runJob { s with pending := rest } i) inv2 ?_
      have hps : potential s ≤ f := Nat.lt_succ_iff.mp hpot
      omega

/-! ### The leaf priming phase -/

theorem primeLeaf_step (G : ComputationalGraph V) (wf : WfGraph G)
    (s : RunState V) (done : List Nat) (hP : PrimeInv G s done)
    (ℓ : Nat) (hℓ : ℓ ∈ G.inputsIds) :
    PrimeInv G (primeLeaf s ℓ) (done ++ [ℓ]) := by
  have hn : ℓ < G.graph.length := wf.leafBounds ℓ hℓ
  have hlt : ℓ < s.nodes.length := by rw [hP.nodesLen]; exact hn
  have hcbS : ∀ k, callbacksAt s.nodes k = callbacksAt G.graph k :=
    fun k => statics_cbs (hP.statics k)
  have hslS : ∀ k, slotsLen s.nodes k = slotsLen G.graph k :=
    fun k => statics_slen (hP.statics k)
  have hisfS : ∀ k, isFoldAt s.nodes k = isFoldAt G.graph k :=
    fun k => statics_isf (hP.statics k)
  have hegrS : ∀ k, eagerAt s.nodes k = eagerAt G.graph k :=
    fun k => statics_egr (hP.statics k)
  have hready : isReadyAt s.nodes ℓ = true := by
    rw [isReadyAt_plain_iff s.nodes ℓ hlt
      (by rw [hisfS]; exact (wf.leafPlain ℓ hℓ).1)]
    intro j hj
    rw [hslS ℓ, (wf.leafPlain ℓ hℓ).2] at hj
    exact absurd hj (Nat.not_lt_zero j)
  have hengl : eagerAt s.nodes ℓ = true → engagedAt s.nodes ℓ = true := by
    intro he
    refine hP.engaged ℓ ?_
    rw [← hegrS ℓ]
    exact he
  have hcbB := cbBounds_transport G wf s.nodes hP.nodesLen hP.statics ℓ hn
  obtain ⟨g2, hrn, hg2len, hg2static, hg2mono, hg2deliv, hg2Rof, hg2eng⟩ :=
    runNodeAtS_ok_spec s.nodes ℓ hlt hready hengl hcbB
  have hcnti : ∀ c, cntFold s.nodes ℓ c = cntFold G.graph ℓ c := by
    intro c
    unfold cntFold
    rw [hcbS ℓ]
  have hpl : primeLeaf s ℓ =
      { s with
        nodes := g2
        runs := s.runs ++ [ℓ]
        isScheduled := s.isScheduled.set ℓ true } := by
    unfold primeLeaf
    rw [hrn]
  rw [hpl]
  have hschedlt : ℓ < s.isScheduled.length := by rw [hP.schedLen]; exact hn
  refine ⟨?_, ?_, ?_, hP.pendNil, hP.countZero, ?_, ?_, ?_, ?_, ?_, ?_⟩
  · show g2.length = G.graph.length
    rw [hg2len, hP.nodesLen]
  · intro k
    show staticsAt g2 k = staticsAt G.graph k
    exact (hg2static k).trans (hP.statics k)
  · show (s.isScheduled.set ℓ true).length = G.graph.length
    rw [List.length_set, hP.schedLen]
  · show s.runs ++ [ℓ] = done ++ [ℓ]
    rw [hP.runsEq]
  · intro c hc
    rcases List.mem_append.mp hc with h1 | h1
    · exact hP.doneSub c h1
    · have h2 : c = ℓ := by simpa using h1
      subst h2
      exact hℓ
  · intro c
    by_cases hcl : ℓ = c
    · subst hcl
      rw [flagSet_self _ _ hschedlt]
      simp
    · rw [flagSet_other _ _ _ hcl]
      rw [hP.flagIff c]
      constructor
      · intro h
        exact List.mem_append_left _ h
      · intro h
        rcases List.mem_append.mp h with h1 | h1
        · exact h1
        · have hce : c = ℓ := by simpa using h1
          exact absurd hce.symm hcl
  · intro p hpm e he j hj
    rcases List.mem_append.mp hpm with h1 | h1
    · exact hg2mono e.1 j (hP.deliveredSlots p h1 e he j hj)
    · have h2 : p = ℓ := by simpa using h1
      subst h2
      refine hg2deliv e ?_ j hj
      rw [hcbS p]
      exact he
  · intro c hisf
    rw [hg2Rof c, hcnti c, hP.foldCount c hisf, List.map_append, List.sum_append]
    simp
  · intro c he
    rw [hg2eng c]
    exact hP.engaged c he

theorem primeLeaf_phase (G : ComputationalGraph V) (wf : WfGraph G) :
    ∀ (ls : List Nat) (s : RunState V) (done : List Nat),
      (∀ ℓ ∈ ls, ℓ ∈ G.inputsIds) → PrimeInv G s done →
      PrimeInv G (ls.foldl primeLeaf s) (done ++ ls) := by
  intro ls
  induction ls with
  | nil =>
    intro s done _ h
    simpa using h
  | cons ℓ ls' ih =>
    intro s done hsub hP
    rw [List.foldl_cons]
    have h2 := primeLeaf_step G wf s done hP ℓ (hsub ℓ (List.mem_cons_self _ _))
    have h3 := ih (primeLeaf s ℓ) (done ++ [ℓ])
      (fun x hx => hsub x (List.mem_cons_of_mem _ hx)) h2
    have he : (done ++ [ℓ]) ++ ls' = done ++ ℓ :: ls' := by simp
    rw [he] at h3
    exact h3

theorem primeInv_init (G : ComputationalGraph V) (wf : WfGraph G) :
    PrimeInv G
      { nodes := G.graph
        isScheduled := List.replicate G.graph.length false
        completedCount := 0
        pending := []
        runs := [] } [] := by
  refine ⟨rfl, fun i => rfl, List.length_replicate _ _, rfl, rfl, rfl, by simp,
    ?_, ?_, ?_, ?_⟩
  · intro c
    show (List.replicate G.graph.length false).getD c false = true ↔ c ∈ ([] : List Nat)
    rw [flag_replicate]
    simp
  · intro p hp
    simp at hp
  · intro c hisf
    show Rof G.graph c = (([] : List Nat).map (fun p => cntFold G.graph p c)).sum
    have h1 := (wf.foldDecl c (isFoldAt_true_lt G.graph c hisf) hisf).2.2
    simpa using h1
  · intro c he
    have hf := eagerAt_true_isFold G.graph c he
    exact wf.foldEngaged c (isFoldAt_true_lt G.graph c hf) hf he

/-! ### The leaf onComplete phase -/

theorem onComplete_leaf_step (G : ComputationalGraph V)
    (s : RunState V) (done2 : List Nat) (hP : P2Inv G s done2)
    (ℓ : Nat) (hℓ : ℓ ∈ G.inputsIds) :
    P2Inv G (onComplete s ℓ) (done2 ++ [ℓ]) := by
  have hscan := scan_spec (outputsAt s.nodes ℓ) s (by
    intro c hc
    rw [hP.schedLen]
    have h1 := isReadyAt_true_lt s.nodes c hc
    rw [hP.nodesLen] at h1
    exact h1)
  obtain ⟨hn, hru, hcc, hsl, hmono, ⟨new, hpend, hnwd, hmem, hprov⟩, hcov, hpot⟩ := hscan
  rw [onComplete_unfold]
  set scan : RunState V := (outputsAt s.nodes ℓ).foldl scheduleChild s with hscandef
  have hnewflags : ∀ c ∈ new, s.isScheduled.getD c false = false :=
    fun c hc => (hmem c hc).2.1
  refine ⟨?_, ?_, ?_, ?_, ?_, ?_, ?_, ?_, ?_, ?_, ?_, ?_, ?_⟩
  · show scan.nodes.length = G.graph.length
    rw [hn, hP.nodesLen]
  · intro k
    show staticsAt scan.nodes k = staticsAt G.graph k
    rw [hn]
    exact hP.statics k
  · show scan.isScheduled.length = G.graph.length
    rw [hsl, hP.schedLen]
  · show scan.runs = G.inputsIds
    rw [hru]
    exact hP.runsEq
  · show scan.completedCount + 1 = (done2 ++ [ℓ]).length
    rw [hcc, hP.countEq]
    simp
  · intro p hpm e he j hj
    show slotSet scan.nodes e.1 j = true
    rw [hn]
    exact hP.deliveredSlots p hpm e he j hj
  · intro c hisf
    show Rof scan.nodes c = (G.inputsIds.map (fun p => cntFold G.graph p c)).sum
    rw [hn]
    exact hP.foldCount c hisf
  · intro c he
    show engagedAt scan.nodes c = true
    rw [hn]
    exact hP.engaged c he
  · show scan.pending.Nodup
    rw [hpend]
    refine List.nodup_append.mpr ⟨hP.pendNodup, hnwd, ?_⟩
    intro c hc hcnew
    have h1 := (hP.flagIff c).mpr (Or.inr hc)
    have h2 := hnewflags c hcnew
    rw [h1] at h2
    exact Bool.noConfusion h2
  · intro c hc
    replace hc : c ∈ scan.pending := hc
    rw [hpend] at hc
    show c < G.graph.length ∧ isReadyAt scan.nodes c = true ∧ c ∉ G.inputsIds
    rcases List.mem_append.mp hc with h1 | h1
    · obtain ⟨ha, hb, hcnl⟩ := hP.pendMem c h1
      refine ⟨ha, ?_, hcnl⟩
      rw [hn]
      exact hb
    · obtain ⟨ha, hb, hcf, hd⟩ := hmem c h1
      refine ⟨?_, ?_, ?_⟩
      · have h2 := isReadyAt_true_lt s.nodes c hd
        rw [hP.nodesLen] at h2
        exact h2
      · rw [hn]
        exact hd
      · intro hcl
        have h2 := (hP.flagIff c).mpr (Or.inl hcl)
        rw [hb] at h2
        exact Bool.noConfusion h2
  · intro c
    constructor
    · intro h
      replace h : scan.isScheduled.getD c false = true := h
      rcases hprov c h with h1 | h1
      · rcases (hP.flagIff c).mp h1 with h2 | h2
        · exact Or.inl h2
        · refine Or.inr ?_
          show c ∈ scan.pending
          rw [hpend]
          exact List.mem_append_left _ h2
      · refine Or.inr ?_
        show c ∈ scan.pending
        rw [hpend]
        exact List.mem_append_right _ h1
    · intro h
      show scan.isScheduled.getD c false = true
      rcases h with h1 | h1
      · exact hmono c ((hP.flagIff c).mpr (Or.inl h1))
      · replace h1 : c ∈ scan.pending := h1
        rw [hpend] at h1
        rcases List.mem_append.mp h1 with h2 | h2
        · exact hmono c ((hP.flagIff c).mpr (Or.inr h2))
        · exact (hmem c h2).2.2.1
  · intro c hcl hcr hex
    replace hcr : isReadyAt scan.nodes c = true := hcr
    rw [hn] at hcr
    show scan.isScheduled.getD c false = true
    obtain ⟨p, hp1, hp2⟩ := hex
    rcases List.mem_append.mp hp1 with h1 | h1
    · exact hmono c (hP.covered c hcl hcr ⟨p, h1, hp2⟩)
    · have hpe : p = ℓ := by simpa using h1
      subst hpe
      refine hcov c ?_ hcr
      rw [statics_outs (hP.statics p)]
      exact hp2
  · show scan.pending.length + scan.isScheduled.count false ≤ G.graph.length
    rw [hpot]
    exact hP.potBound

theorem onComplete_phase (G : ComputationalGraph V) :
    ∀ (ls : List Nat) (s : RunState V) (done2 : List Nat),
      (∀ ℓ ∈ ls, ℓ ∈ G.inputsIds) → P2Inv G s done2 →
      P2Inv G (ls.foldl onComplete s) (done2 ++ ls) := by
  intro ls
  induction ls with
  | nil =>
    intro s done2 _ h
    simpa using h
  | cons ℓ ls' ih =>
    intro s done2 hsub hP
    rw [List.foldl_cons]
    have h2 := onComplete_leaf_step G s done2 hP ℓ (hsub ℓ (List.mem_cons_self _ _))
    have h3 := ih (onComplete s ℓ) (done2 ++ [ℓ])
      (fun x hx => hsub x (List.mem_cons_of_mem _ hx)) h2
    have he : (done2 ++ [ℓ]) ++ ls' = done2 ++ ℓ :: ls' := by simp
    rw [he] at h3
    exact h3

theorem p2Inv_init (G : ComputationalGraph V) (s : RunState V)
    (hP : PrimeInv G s G.inputsIds) : P2Inv G s [] := by
  refine ⟨hP.nodesLen, hP.statics, hP.schedLen, hP.runsEq, ?_,
    hP.deliveredSlots, hP.foldCount, hP.engaged, ?_, ?_, ?_, ?_, ?_⟩
  · rw [hP.countZero]
    rfl
  · rw [hP.pendNil]
    exact List.nodup_nil
  · intro c hc
    rw [hP.pendNil] at hc
    simp at hc
  · intro c
    rw [hP.flagIff c, hP.pendNil]
    simp
  · intro c _ _ hex
    obtain ⟨p, hp, _⟩ := hex
    simp at hp
  · show potential s ≤ G.graph.length
    unfold potential
    rw [hP.pendNil]
    have h1 : s.isScheduled.count false ≤ s.isScheduled.length :=
      List.count_le_length false s.isScheduled
    rw [hP.schedLen] at h1
    simpa using h1

/-! ### From the end of the leaf phases to the scheduler invariant -/

theorem p2_to_schedInv (G : ComputationalGraph V) (wf : WfGraph G)
    (s : RunState V) (hP : P2Inv G s G.inputsIds) : SchedInv G s := by
  have hslS : ∀ k, slotsLen s.nodes k = slotsLen G.graph k :=
    fun k => statics_slen (hP.statics k)
  have hisfS : ∀ k, isFoldAt s.nodes k = isFoldAt G.graph k :=
    fun k => statics_isf (hP.statics k)
  have hdclS : ∀ k, Dof s.nodes k = Dof G.graph k :=
    fun k => statics_dcl (hP.statics k)
  refine ⟨hP.nodesLen, hP.statics, hP.schedLen, hP.pendNodup, ?_, ?_, ?_, ?_, ?_,
    ?_, ?_, ?_, hP.engaged, ?_, ?_⟩
  · intro c hc
    obtain ⟨h1, h2, h3⟩ := hP.pendMem c hc
    exact ⟨h1, (hP.flagIff c).mpr (Or.inr hc), h2⟩
  · rw [hP.runsEq]
    exact wf.leafNodup
  · intro c hc
    rw [hP.runsEq] at hc
    exact ⟨wf.leafBounds c hc, (hP.flagIff c).mpr (Or.inl hc)⟩
  · intro c hc
    rw [hP.runsEq]
    exact (hP.pendMem c hc).2.2
  · rw [hP.countEq, hP.runsEq]
  · intro c hc
    rcases (hP.flagIff c).mp hc with h1 | h1
    · rw [hP.runsEq]
      exact Or.inl h1
    · exact Or.inr h1
  · intro p hp e he j hj
    rw [hP.runsEq] at hp
    exact hP.deliveredSlots p hp e he j hj
  · intro c hisf
    rw [hP.runsEq]
    exact hP.foldCount c hisf
  · intro c hc hcleaf hwall
    cases hisf : isFoldAt G.graph c with
    | false =>
      have hcl2 : c < s.nodes.length := by rw [hP.nodesLen]; exact hc
      have hready : isReadyAt s.nodes c = true := by
        rw [isReadyAt_plain_iff s.nodes c hcl2 (by rw [hisfS]; exact hisf)]
        intro j hj
        rw [hslS c] at hj
        obtain ⟨pj, hpjR, hpj2⟩ := (wf.slotCovered c hc hisf hcleaf).2 j hj
        have hpj1 : pj < G.graph.length := List.mem_range.mp hpjR
        have hpjr := hwall pj hpj1 ⟨Handler.slot j, hpj2⟩
        rw [hP.runsEq] at hpjr
        exact hP.deliveredSlots pj hpjr (c, Handler.slot j) hpj2 j rfl
      have hslot0 : 0 < slotsLen G.graph c := (wf.slotCovered c hc hisf hcleaf).1
      obtain ⟨p0, hp0R, hp02⟩ := (wf.slotCovered c hc hisf hcleaf).2 0 hslot0
      have hp01 : p0 < G.graph.length := List.mem_range.mp hp0R
      have hp0r := hwall p0 hp01 ⟨Handler.slot 0, hp02⟩
      rw [hP.runsEq] at hp0r
      refine hP.covered c hcleaf hready ⟨p0, hp0r, ?_⟩
      rw [wf.outputsEq p0 hp01]
      exact List.mem_map.mpr ⟨(c, Handler.slot 0), hp02, rfl⟩
    | true =>
      have hDr := (wf.foldDecl c hc hisf).1
      have hDpos := (wf.foldDecl c hc hisf).2.1
      have hready : isReadyAt s.nodes c = true := by
        rw [isReadyAt_fold_iff s.nodes c (by rw [hisfS]; exact hisf),
          hdclS c, hDr, hP.foldCount c hisf]
        refine (nodupSum_eq_range (fun p => cntFold G.graph p c) G.inputsIds
          G.graph.length wf.leafNodup wf.leafBounds ?_).symm
        intro p hplt hpne
        have hpr := hwall p hplt ⟨Handler.foldDeliver, cnt_ne_zero_mem hpne⟩
        rw [hP.runsEq] at hpr
        exact hpr
      obtain ⟨p0, hp0lt, hp0ne⟩ := rangeSum_pos_exists
        (fun p => cntFold G.graph p c) G.graph.length (by rw [← hDr]; omega)
      have hmem0 : (c, Handler.foldDeliver) ∈ callbacksAt G.graph p0 :=
        cnt_ne_zero_mem hp0ne
      have hp0r := hwall p0 hp0lt ⟨Handler.foldDeliver, hmem0⟩
      rw [hP.runsEq] at hp0r
      refine hP.covered c hcleaf hready ⟨p0, hp0r, ?_⟩
      rw [wf.outputsEq p0 hp0lt]
      exact List.mem_map.mpr ⟨(c, Handler.foldDeliver), hmem0, rfl⟩
  · intro ℓ hℓ
    rw [hP.runsEq]
    exact hℓ

/-! ### The full run of the scheduler -/

theorem scheduler_complete (V : Type) (G : ComputationalGraph V)
    (wf : WfGraph G) (hac : Acyclic G) :
    (ComputationalGraph.run G).pending = [] ∧
    SchedInv G (ComputationalGraph.run G) ∧
    ∀ c < G.graph.length, c ∈ (ComputationalGraph.run G).runs := by
  have h0 := primeInv_init G wf
  have h1 := primeLeaf_phase G wf G.inputsIds _ [] (fun ℓ h => h) h0
  rw [List.nil_append] at h1
  have h2 := p2Inv_init G _ h1
  have h3 := onComplete_phase G G.inputsIds _ [] (fun ℓ h => h) h2
  rw [List.nil_append] at h3
  have hs2 := p2_to_schedInv G wf _ h3
  have hpotb := h3.potBound
  set sF : RunState V := processJobs (G.graph.length + 1)
      (G.inputsIds.foldl onComplete
        (G.inputsIds.foldl primeLeaf
          { nodes := G.graph
            isScheduled := List.replicate G.graph.length false
            completedCount := 0
            pending := []
            runs := [] })) with hsF
  have hrunEq : ComputationalGraph.run G = sF := rfl
  obtain ⟨hinv, hpend⟩ := processJobs_inv G wf (G.graph.length + 1) _ hs2
    (Nat.lt_succ_of_le hpotb)
  rw [hrunEq]
  obtain ⟨rank, hrank⟩ := hac
  refine ⟨hpend, hinv, ?_⟩
  have hcov : ∀ k c, c < G.graph.length → rank c = k → c ∈ sF.runs := by
    intro k
    induction k using Nat.strong_induction_on with
    | _ k ih =>
      intro c hc hr
      by_cases hleaf : c ∈ G.inputsIds
      · exact hinv.leavesRan c hleaf
      · have hall : ∀ p, p < G.graph.length →
            (∃ h, (c, h) ∈ callbacksAt G.graph p) → p ∈ sF.runs := by
          intro p h1 h2
          obtain ⟨h0, hj⟩ := h2
          have hlt : rank p < rank c := hrank p h1 (c, h0) hj
          exact ih (rank p) (by omega) p h1 rfl
        have hsched := hinv.readySched c hc hleaf hall
        rcases hinv.schedImp c hsched with h | h
        · exact h
        · rw [hpend] at h
          simp at h
  intro c hc
  exact hcov (rank c) c hc rfl

/-! ### Claim C2 -/

/-- Claim C2 counterexample: the graph holding a single arity-zero node
added through addNode rather than addInput is acyclic and its computation
does not block, yet completedCount never reaches the node count (the node is
registered in no leaf set and has no predecessors, so no onComplete ever
examines it), and the wait on allCompleted never returns. -/
theorem claimC2_counterexample :
    (ComputationalGraph.run demoUnreachable).completedCount ≠
      demoUnreachable.graph.length ∧
    demoUnreachable.graph.length = 1 := by
  constructor
  · decide
  · rfl

/-- Claim C2 amended: for every acyclic graph — fold nodes and their fan-in
included, as well as input slots with several registered writers — in which
every node that is not a registered leaf is fed from its producers (every
input slot of a plain non-leaf node has at least one registered producer
callback, every fold node has at least one connected producer, and the
registered leaves are arity-zero plain nodes), completedCount reaches the
node count, so the wait on allCompleted returns. -/
theorem claimC2_termination (V : Type) (G : ComputationalGraph V)
    (wf : WfGraph G) (hac : Acyclic G) :
    (ComputationalGraph.run G).completedCount = G.graph.length := by
  obtain ⟨hpend, hinv, hcov⟩ := scheduler_complete V G wf hac
  rw [hinv.countEq]
  have hts : (ComputationalGraph.run G).runs.toFinset =
      Finset.range G.graph.length := by
    apply Finset.ext
    intro c
    rw [List.mem_toFinset, Finset.mem_range]
    exact ⟨fun h => (hinv.runsMem c h).1, fun h => hcov c h⟩
  rw [← List.toFinset_card_of_nodup hinv.runsNodup, hts, Finset.card_range]

set_option synthInstance.maxSize 1000 in
/-- Witness for claim C2 at the diamond of the sample program: a leaf, two
plain nodes and a buffered fold with fan-in two; the count reaches four. -/
theorem claimC2_witness :
    (ComputationalGraph.run demoDiamond).completedCount = 4 := by
  have hwf : WfGraph demoDiamond :=
    ⟨by decide, by decide, by decide, by decide, by decide, by decide,
     by decide, by decide, by decide⟩
  have hac : Acyclic demoDiamond := ⟨fun c => c, by decide⟩
  have h := claimC2_termination Nat demoDiamond hwf hac
  exact h

/-! ### Claim C3 -/

/-- Claim C3 counterexample: in the single unreachable node graph the node
with id 0 exists, but its run is never invoked during the whole run of the
graph, refuting invocation exactly once for every node. -/
theorem claimC3_counterexample :
    (ComputationalGraph.run demoUnreachable3).runs.count 0 = 0 ∧
    demoUnreachable3.graph.length = 1 := by
  constructor
  · decide
  · rfl

/-- Claim C3 amended: in every acyclic graph in which every node that is
not a registered leaf is fed from its producers — fold-node fan-in and
multi-writer slots included — every node's run is invoked exactly once per
run of the graph: the leaves synchronously and every other node through the
at-most-once scheduling guard on isScheduled. A node with no producers that
is not a registered leaf is instead never run at all. -/
theorem claimC3_run_exactly_once (V : Type) (G : ComputationalGraph V)
    (wf : WfGraph G) (hac : Acyclic G) :
    ∀ i < G.graph.length, (ComputationalGraph.run G).runs.count i = 1 := by
  obtain ⟨hpend, hinv, hcov⟩ := scheduler_complete V G wf hac
  intro i hi
  exact List.count_eq_one_of_mem hinv.runsNodup (hcov i hi)

set_option synthInstance.maxSize 1000 in
/-- Witness for claim C3 at the diamond with an eager fold sink: every one
of the four nodes runs exactly once. -/
theorem claimC3_witness :
    (ComputationalGraph.run demoDiamond3).runs.count 0 = 1 ∧
    (ComputationalGraph.run demoDiamond3).runs.count 3 = 1 := by
  have hwf : WfGraph demoDiamond3 :=
    ⟨by decide, by decide, by decide, by decide, by decide, by decide,
     by decide, by decide, by decide⟩
  have hac : Acyclic demoDiamond3 := ⟨fun c => c, by decide⟩
  exact ⟨claimC3_run_exactly_once Nat demoDiamond3 hwf hac 0 (by decide),
    claimC3_run_exactly_once Nat demoDiamond3 hwf hac 3 (by decide)⟩

end CompGraph
